import Mathlib

/-!
# Tensor-Go: elimination solvers and all-element reductions

A shallow embedding of `TG/elimination.go` and `TG/all_element_ops.go`.

* A `float64` buffer is a list of rationals: arithmetic is exact.
* A Go `panic` raised by the code is an `Except.error` carrying a `Panic`.
* A loop `for i := lo; i < hi; i++` is a left fold over `List.range' lo (hi - lo)`, and a
  loop `for i := n - 1; i >= 0; i--` a left fold over `(List.range n).reverse`.
* `A.Data[p]` is read with default `0` and written with `List.set`. Under the tensor invariant
  `len(Data) = product(Shape)`, which the theorems assume, every index the code computes lies
  inside the buffer, so the Go runtime index check never fires.
* In the elimination routines `/` is the total division of `ℚ`: a Go `float64` division never
  panics, and the theorems that depend on a quotient establish that its divisor is not zero.
* The `== 0` pivot tests of `Forward_Elimination` and `RREF` therefore act on exact values.
  The `_rounded` definitions repeat the Gauss-Jordan path with every arithmetic operation
  rounded; with the rounding `float64` they give the run of the program on `float64` values,
  in which those tests see rounded values.
* The reducers of `all_element_ops.go` return `F64` values, in which the result of a division
  by zero (NaN, ±Inf) is visible as `none`.
-/

namespace TG

/-! ## Data model -/

/-- The `Tensor` struct: a flat row-major buffer and a shape descriptor. -/
structure Tensor where
  Data : List ℚ
  Shape : List Nat
  deriving DecidableEq, Repr

/-- The panics raised by the modelled code. -/
inductive Panic where
  /-- `"Forward_Elimination() within Gaussian_Elimination() --- No unique solution"` -/
  | ForwardNoUniqueSolution
  /-- `"RREF() --- No unique solution"` -/
  | RREFNoUniqueSolution
  /-- `"Set_Row() --- Tensors must have the same number of columns"` -/
  | SetRowColumns
  /-- A shape mismatch reported by a collaborator (`Augment_Matrix`). -/
  | ShapeMismatch
  /-- A Go runtime index-out-of-range panic in a collaborator (`Remove_Dim`). -/
  | IndexOutOfRange
  deriving DecidableEq, Repr

/-- The Singular-Matrix ("No unique solution") failures. -/
def Panic.isSingular : Panic → Bool
  | .ForwardNoUniqueSolution => true
  | .RREFNoUniqueSolution => true
  | _ => false

/-- The Go expression `A.Shape[0]`. -/
def Tensor.rows (A : Tensor) : Nat := A.Shape.getD 0 0

/-- The Go expression `A.Shape[1]`. -/
def Tensor.cols (A : Tensor) : Nat := A.Shape.getD 1 0

/-- The Go expression `A.Data[p]` (a read). -/
def Tensor.get (A : Tensor) (p : Nat) : ℚ := A.Data.getD p 0

/-- The Go statement `A.Data[p] = v` (a write). -/
def Tensor.put (A : Tensor) (p : Nat) (v : ℚ) : Tensor :=
  { A with Data := A.Data.set p v }

/-- The tensor invariant for a 2-D tensor of shape `[r, c]`. -/
def Tensor.IsMatrix (A : Tensor) (r c : Nat) : Prop :=
  A.Shape = [r, c] ∧ A.Data.length = r * c

instance Tensor.decIsMatrix (A : Tensor) (r c : Nat) : Decidable (A.IsMatrix r c) := by
  unfold Tensor.IsMatrix; infer_instance

/-! ## Collaborators that are not part of the two source files -/

/-- Modelled from the spec: `Zero_Tensor(shape, batching)` is missing from the sources; it
allocates a tensor of the given shape whose buffer holds `product(shape)` zeros. -/
def Zero_Tensor (shape : List Nat) (_batching : Bool) : Tensor :=
  ⟨List.replicate shape.prod 0, shape⟩

/-- Modelled from the spec: `Copy()` is missing from the sources; it returns a newly allocated
tensor with the same buffer contents and shape. -/
def Tensor.Copy (A : Tensor) : Tensor := ⟨A.Data, A.Shape⟩

/-- Modelled from the spec: `Add_Singleton()` is missing from the sources; a bare length-`n`
vector is promoted to an `n×1` matrix over the same buffer. -/
def Tensor.Add_Singleton (b : Tensor) : Tensor := ⟨b.Data, b.Shape ++ [1]⟩

/-- Modelled from the spec: `Augment_Matrix(A, b)` is missing from the sources; it returns a new
matrix formed by appending `b`'s columns to `A`'s columns, and fails with a shape mismatch when
the row counts differ. -/
def Augment_Matrix (A b : Tensor) : Except Panic Tensor :=
  if A.rows ≠ b.rows then throw Panic.ShapeMismatch
  else
    let c := A.cols + b.cols
    pure ⟨(List.range (A.rows * c)).map (fun p =>
            if p % c < A.cols then A.get (p / c * A.cols + p % c)
            else b.get (p / c * b.cols + (p % c - A.cols))),
          [A.rows, c]⟩

/-- Modelled from the spec: `Remove_Dim(d, e)` is missing from the sources; it selects index `e`
along dimension `d` of a 2-D tensor (for `d = 1`, column `e`, as a tensor of shape `[rows]`), and
an index outside the dimension is a runtime index panic. -/
def Tensor.Remove_Dim (A : Tensor) (d e : Nat) : Except Panic Tensor :=
  if d = 1 then
    if e < A.cols then
      pure ⟨(List.range A.rows).map (fun i => A.get (i * A.cols + e)), [A.rows]⟩
    else throw Panic.IndexOutOfRange
  else if d = 0 then
    if e < A.rows then
      pure ⟨(List.range A.cols).map (fun j => A.get (e * A.cols + j)), [A.cols]⟩
    else throw Panic.IndexOutOfRange
  else throw Panic.IndexOutOfRange

/-! ## Row primitives (`elimination.go`) -/

/-- `Tensor.Get_Row`: a newly allocated `1×c` copy of the given row. -/
def Tensor.Get_Row (A : Tensor) (row : Nat) : Tensor :=
  let B := Zero_Tensor [1, A.cols] false
  (List.range' 0 (A.cols - 0)).foldl (fun B i => B.put i (A.get (row * A.cols + i))) B

/-- `Tensor.Set_Row`: overwrite the given row of `A` with the first `A.Shape[1]` values of `B`. -/
def Tensor.Set_Row (A : Tensor) (row : Nat) (B : Tensor) : Except Panic Tensor :=
  if A.cols ≠ B.cols then throw Panic.SetRowColumns
  else
    pure ((List.range' 0 (A.cols - 0)).foldl
      (fun A i => A.put (row * A.cols + i) (B.get i)) A)

/-- `Tensor.Swap_Rows`: exchange rows `i` and `j` through a temporary copy. -/
def Tensor.Swap_Rows (A : Tensor) (i j : Nat) : Except Panic Tensor := do
  let temp := (A.Get_Row i).Copy
  let A ← A.Set_Row i (A.Get_Row j)
  A.Set_Row j temp

/-! ## Elimination engine (`elimination.go`) -/

/-- `Find_Pivot`: the row of column `k`, from row `k` down, found by the strict `>` scan. -/
def Find_Pivot (A : Tensor) (k : Nat) : Nat :=
  ((List.range' k (A.rows - k)).foldl
    (fun (s : Nat × ℚ) i =>
      if |A.get (i * A.cols + k)| > s.2 then (i, |A.get (i * A.cols + k)|) else s)
    (k, 0)).1

/-- The innermost loop of `Forward_Elimination` and of `RREF`'s second phase:
`for j := k; j < Ab.Shape[0]+1; j++ { Ab[i,j] = Ab[i,j] - Ab[k,j]*f }`. -/
def subtractRow (Ab : Tensor) (k i : Nat) (f : ℚ) : Tensor :=
  (List.range' k (Ab.rows + 1 - k)).foldl
    (fun Ab j =>
      Ab.put (i * Ab.cols + j) (Ab.get (i * Ab.cols + j) - Ab.get (k * Ab.cols + j) * f))
    Ab

/-- The loop over the rows below the pivot row in `Forward_Elimination`. -/
def eliminateBelow (Ab : Tensor) (k : Nat) : Tensor :=
  (List.range' (k + 1) (Ab.rows - (k + 1))).foldl
    (fun Ab i =>
      let f := Ab.get (i * Ab.cols + k) / Ab.get (k * Ab.cols + k)
      subtractRow Ab k i f)
    Ab

/-- One iteration (pivot column `k`) of the outer loop of `Forward_Elimination`, in exact
arithmetic: the zero-pivot test acts on the exact value (`forwardStep_rounded` is the same
iteration on rounded values). -/
def forwardStep (Ab : Tensor) (k : Nat) : Except Panic Tensor := do
  let i_max := Find_Pivot Ab k
  if Ab.get (i_max * Ab.cols + k) = 0 then throw Panic.ForwardNoUniqueSolution
  let Ab ← Ab.Swap_Rows k i_max
  pure (eliminateBelow Ab k)

/-- `Forward_Elimination`: `for k := 0; k < Ab.Shape[0]-1; k++`. -/
def Forward_Elimination (Ab : Tensor) : Except Panic Tensor :=
  (List.range' 0 (Ab.rows - 1 - 0)).foldlM forwardStep Ab

/-- The inner loop of `Back_Substitution`: `sum += Ab[i,j] * x[j]` for `j` in `i+1 .. n-1`. -/
def backSum (Ab x : Tensor) (i : Nat) : ℚ :=
  (List.range' (i + 1) (Ab.rows - (i + 1))).foldl
    (fun sum j => sum + Ab.get (i * Ab.cols + j) * x.get j) 0

/-- `Back_Substitution`: `for i := Ab.Shape[0]-1; i >= 0; i--`. -/
def Back_Substitution (Ab A : Tensor) : Tensor :=
  let x := Zero_Tensor [Ab.rows, 1] false
  (List.range Ab.rows).reverse.foldl
    (fun x i =>
      let sum := backSum Ab x i
      x.put i ((Ab.get (i * Ab.cols + A.rows) - sum) / Ab.get (i * Ab.cols + i)))
    x

/-- The normalising loop of `RREF`: `for j := k; j < Ab.Shape[0]+1; j++ { Ab[k,j] = Ab[k,j] / f }`. -/
def normaliseRow (Ab : Tensor) (k : Nat) (f : ℚ) : Tensor :=
  (List.range' k (Ab.rows + 1 - k)).foldl
    (fun Ab j => Ab.put (k * Ab.cols + j) (Ab.get (k * Ab.cols + j) / f))
    Ab

/-- The loop over the rows above row `k` in `RREF`. -/
def eliminateAbove (Ab : Tensor) (k : Nat) : Tensor :=
  (List.range' 0 (k - 0)).foldl
    (fun Ab i =>
      let f := Ab.get (i * Ab.cols + k)
      subtractRow Ab k i f)
    Ab

/-- One iteration (row `k`) of the outer loop of `RREF`, in exact arithmetic: the `f == 0`
test acts on the exact value (`rrefStep_rounded` is the same iteration on rounded values). -/
def rrefStep (Ab : Tensor) (k : Nat) : Except Panic Tensor := do
  let f := Ab.get (k * Ab.cols + k)
  if f = 0 then throw Panic.RREFNoUniqueSolution
  let Ab := normaliseRow Ab k f
  pure (eliminateAbove Ab k)

/-- `RREF`: `for k := Ab.Shape[0] - 1; k >= 0; k--`. -/
def RREF (Ab : Tensor) : Except Panic Tensor :=
  (List.range Ab.rows).reverse.foldlM rrefStep Ab

/-! ## Solver strategies (`elimination.go`) -/

/-- `GaussianElimination.Execute`. -/
def GaussianElimination.Execute (A b : Tensor) : Except Panic Tensor := do
  let b := if b.Shape.length = 1 then b.Add_Singleton else b
  let Ab ← Augment_Matrix A b
  let Ab ← Forward_Elimination Ab
  pure (Back_Substitution Ab A)

/-- `GaussJordanElimination.Execute`. -/
def GaussJordanElimination.Execute (A b : Tensor) : Except Panic Tensor := do
  let b := if b.Shape.length = 1 then b.Add_Singleton else b
  let Ab ← Augment_Matrix A b
  let Ab ← Forward_Elimination Ab
  let Ab ← RREF Ab
  Ab.Remove_Dim 1 3

/-! ## Reduction engine and reducers (`all_element_ops.go`) -/

/-- A `float64` result in exact arithmetic: `some q` is the finite value `q`; `none` is a
non-finite value (NaN or ±Inf), which arises only from a division by zero. -/
abbrev F64 := Option ℚ

/-- Go `x + y`. -/
def F64.add : F64 → F64 → F64
  | some x, some y => some (x + y)
  | _, _ => none

/-- Go `x - y`. -/
def F64.sub : F64 → F64 → F64
  | some x, some y => some (x - y)
  | _, _ => none

/-- Go `x * y`. -/
def F64.mul : F64 → F64 → F64
  | some x, some y => some (x * y)
  | _, _ => none

/-- Go `x / float64(n)` for an integer count `n`: NaN or ±Inf when `n` is zero. -/
def F64.divCount : F64 → Nat → F64
  | some x, n => if n = 0 then none else some (x / (n : ℚ))
  | none, _ => none

/-- The `AllOperation` interface. -/
structure AllOperation where
  Apply : Tensor → Nat → Nat → F64
  CombineResults : List F64 → F64

/-- `Tensor.AllOperation`: four chunks, the last one ending at `len(t.Data)`; slot `i` of
`results` receives the value of `op.Apply` on chunk `i`. -/
def Tensor.AllOperation (t : Tensor) (op : AllOperation) : F64 :=
  let numGoroutines := 4
  let chunkSize := t.Data.length / numGoroutines
  let results := (List.range' 0 (numGoroutines - 0)).map (fun i =>
    let start := i * chunkSize
    let stop := if i = numGoroutines - 1 then t.Data.length else start + chunkSize
    op.Apply t start stop)
  op.CombineResults results

/-- `SumAllOperation.Apply`. -/
def SumAllOperation.Apply (A : Tensor) (start stop : Nat) : F64 :=
  (List.range' start (stop - start)).foldl (fun sum i => F64.add sum (some (A.get i))) (some 0)

/-- `SumAllOperation.CombineResults`. -/
def SumAllOperation.CombineResults (results : List F64) : F64 :=
  results.foldl (fun sum v => F64.add sum v) (some 0)

/-- The `SumAllOperation` value. -/
def SumAllOperation : AllOperation := ⟨SumAllOperation.Apply, SumAllOperation.CombineResults⟩

/-- `Tensor.Sum_All`. -/
def Tensor.Sum_All (A : Tensor) : F64 := A.AllOperation SumAllOperation

/-- `MeanAllOperation.Apply`. -/
def MeanAllOperation.Apply (A : Tensor) (start stop : Nat) : F64 :=
  let sum := SumAllOperation.Apply A start stop
  F64.divCount sum (stop - start)

/-- `MeanAllOperation.CombineResults`. -/
def MeanAllOperation.CombineResults (results : List F64) : F64 :=
  let sum := SumAllOperation.CombineResults results
  F64.divCount sum results.length

/-- The `MeanAllOperation` value. -/
def MeanAllOperation : AllOperation := ⟨MeanAllOperation.Apply, MeanAllOperation.CombineResults⟩

/-- `Tensor.Mean_All`. -/
def Tensor.Mean_All (A : Tensor) : F64 := A.AllOperation MeanAllOperation

/-- `VarAllOperation.Apply` for the struct field `mean`. -/
def VarAllOperation.Apply (mean : F64) (t : Tensor) (start stop : Nat) : F64 :=
  (List.range' start (stop - start)).foldl
    (fun variance i =>
      let diff := F64.sub (some (t.get i)) mean
      F64.add variance (F64.mul diff diff))
    (some 0)

/-- `VarAllOperation.CombineResults`. -/
def VarAllOperation.CombineResults (results : List F64) : F64 :=
  let sum := SumAllOperation.CombineResults results
  F64.divCount sum results.length

/-- The `VarAllOperation{mean: mean}` value. -/
def VarAllOperation (mean : F64) : AllOperation :=
  ⟨VarAllOperation.Apply mean, VarAllOperation.CombineResults⟩

/-- `Tensor.Var_All`. -/
def Tensor.Var_All (A : Tensor) : F64 :=
  let mean := A.Mean_All
  A.AllOperation (VarAllOperation mean)

/-! ## Specification vocabulary -/

/-- The matrix entry `A[i, j]`, read as `A.Data[i*A.Shape[1]+j]`. -/
def Tensor.entry (A : Tensor) (i j : Nat) : ℚ := A.get (i * A.cols + j)

/-- The coefficient block of a matrix tensor: its first `n` rows and columns. -/
def Tensor.toMatrix (A : Tensor) (n : Nat) : Matrix (Fin n) (Fin n) ℚ :=
  fun i j => A.entry i j

/-- The vector `x` solves the linear system held in the `n×(n+1)` augmented matrix `Ab`. -/
def Tensor.Solves (Ab : Tensor) (n : Nat) (x : Nat → ℚ) : Prop :=
  ∀ i, i < n → ∑ j in Finset.range n, Ab.entry i j * x j = Ab.entry i n

/-- The row exchanged with row `a` by a swap of rows `k` and `p`. -/
def swapIndex (k p a : Nat) : Nat := if a = p then k else if a = k then p else a

/-- The loop invariant of `Forward_Elimination` before iteration `k`, relative to the matrix
`Ab0` the loop started from. -/
structure FwdInv (Ab0 Ab : Tensor) (n k : Nat) : Prop where
  isMatrix : Ab.IsMatrix n (n + 1)
  below : ∀ i j, j < k → j < i → i < n → Ab.entry i j = 0
  diag : ∀ i, i < k → Ab.entry i i ≠ 0
  solves : ∀ x, Ab.Solves n x ↔ Ab0.Solves n x
  det : (Ab.toMatrix n).det = 0 ↔ (Ab0.toMatrix n).det = 0

/-- A 1-D tensor holding `n` values. -/
def Tensor.IsVector (b : Tensor) (n : Nat) : Prop :=
  b.Shape = [n] ∧ b.Data.length = n

instance Tensor.decIsVector (b : Tensor) (n : Nat) : Decidable (b.IsVector n) := by
  unfold Tensor.IsVector; infer_instance

deriving instance DecidableEq for Except

/-- The variance by its definition, `sum((x_i - mean)^2) / n` with `mean = sum(x_i) / n`. -/
def varianceByDefinition (l : List ℚ) : ℚ :=
  (l.map (fun x => (x - l.sum / (l.length : ℚ)) ^ 2)).sum / (l.length : ℚ)

/-- `Tensor.Set_Row` with the receiver made explicit: the tensor `A` as it is when the call
returns or panics, and the panic if one was raised. The column check precedes every write. -/
def Tensor.Set_Row_exit (A : Tensor) (row : Nat) (B : Tensor) : Tensor × Option Panic :=
  if A.cols ≠ B.cols then (A, some Panic.SetRowColumns)
  else
    ((List.range' 0 (A.cols - 0)).foldl
      (fun A i => A.put (row * A.cols + i) (B.get i)) A, none)

/-- The sum of the buffer elements of the chunk `[start, stop)`. -/
def chunkSum (t : Tensor) (start stop : Nat) : ℚ :=
  ∑ i in Finset.Ico start stop, t.get i

/-- The state of the loop of `eliminateBelow` when it reaches row `m`: the rows `k+1 .. m-1`
have been processed. -/
def eliminateBelowUpTo (Ab : Tensor) (k m : Nat) : Tensor :=
  (List.range' (k + 1) (m - (k + 1))).foldl
    (fun Ab i =>
      let f := Ab.get (i * Ab.cols + k) / Ab.get (k * Ab.cols + k)
      subtractRow Ab k i f)
    Ab

/-- The state of the outer loop of `Forward_Elimination` when it reaches iteration `k`: the
iterations `0 .. k-1` have been run. -/
def forwardPrefix (Ab : Tensor) (k : Nat) : Except Panic Tensor :=
  (List.range' 0 k).foldlM forwardStep Ab

/-- The loop invariant of `RREF` before iteration `k` (the rows above `k` are still to be
processed), relative to the matrix `U` the loop started from. -/
structure RrefInv (U R : Tensor) (n k : Nat) : Prop where
  isMatrix : R.IsMatrix n (n + 1)
  upper : ∀ i j, j < i → i < n → R.entry i j = 0
  reduced : ∀ i j, i < n → k ≤ j → j < n → R.entry i j = if i = j then 1 else 0
  diag : ∀ i, i < k → R.entry i i = U.entry i i
  pivots : ∀ i, k ≤ i → i < n → U.entry i i ≠ 0
  solves : ∀ x, R.Solves n x ↔ U.Solves n x

/-! ## The same loops in `float64` arithmetic

The definitions above compute in exact rationals. The ones below take the rounding applied to
the result of every arithmetic operation as a parameter `rnd`: with `rnd = id` they are the
exact definitions, and with `rnd = float64` they are the program as it runs on `float64`
values (each operation rounded on its own, as the Go compiler does on amd64). Comparisons,
absolute values and the copies made by `Swap_Rows` are exact on `float64` values. -/

/-- The integer nearest to `N / D`, ties going to the even one (`D > 0`). -/
def roundHalfEven (N D : Nat) : Nat :=
  if 2 * (N % D) < D then N / D
  else if D < 2 * (N % D) then N / D + 1
  else if (N / D) % 2 = 0 then N / D
  else N / D + 1

/-- The number of halvings that bring `n` below `2`, at most `fuel` of them. -/
def halvings : Nat → Nat → Nat
  | 0, _ => 0
  | fuel + 1, n => if n < 2 then 0 else halvings fuel (n / 2) + 1

/-- The exponent `l` with `2^l ≤ p / q < 2^(l+1)`, for `p, q > 0`. -/
def floorLog2 (p q : Nat) : Int :=
  let d : Int := (halvings p p : Int) - (halvings q q : Int)
  if q * 2 ^ d.toNat ≤ p * 2 ^ (-d).toNat then d else d - 1

/-- The IEEE 754 binary64 value nearest to `x`, ties to even: a 53-bit significand `m` and an
exponent `e ≥ -1074` with value `m * 2^e` (subnormal below `2^-1022`). Overflow to `±Inf`,
which starts at `2^1024`, is not represented. -/
def float64 (x : ℚ) : ℚ :=
  if x = 0 then 0
  else
    let e : Int := max (floorLog2 x.num.natAbs x.den - 52) (-1074)
    let m := roundHalfEven (x.num.natAbs * 2 ^ (-e).toNat) (x.den * 2 ^ e.toNat)
    mkRat (x.num.sign * (m * 2 ^ e.toNat : Nat)) (2 ^ (-e).toNat)

/-- The innermost loop `Ab[i,j] = Ab[i,j] - Ab[k,j]*f` with every operation rounded. -/
def subtractRow_rounded (rnd : ℚ → ℚ) (Ab : Tensor) (k i : Nat) (f : ℚ) : Tensor :=
  (List.range' k (Ab.rows + 1 - k)).foldl
    (fun Ab j =>
      Ab.put (i * Ab.cols + j)
        (rnd (Ab.get (i * Ab.cols + j) - rnd (Ab.get (k * Ab.cols + j) * f))))
    Ab

/-- The loop over the rows below the pivot row in `Forward_Elimination`, rounded. -/
def eliminateBelow_rounded (rnd : ℚ → ℚ) (Ab : Tensor) (k : Nat) : Tensor :=
  (List.range' (k + 1) (Ab.rows - (k + 1))).foldl
    (fun Ab i =>
      let f := rnd (Ab.get (i * Ab.cols + k) / Ab.get (k * Ab.cols + k))
      subtractRow_rounded rnd Ab k i f)
    Ab

/-- One iteration of the outer loop of `Forward_Elimination`, rounded: the zero-pivot test
sees the stored, rounded value. -/
def forwardStep_rounded (rnd : ℚ → ℚ) (Ab : Tensor) (k : Nat) : Except Panic Tensor := do
  let i_max := Find_Pivot Ab k
  if Ab.get (i_max * Ab.cols + k) = 0 then throw Panic.ForwardNoUniqueSolution
  let Ab ← Ab.Swap_Rows k i_max
  pure (eliminateBelow_rounded rnd Ab k)

/-- `Forward_Elimination` with every arithmetic operation rounded by `rnd`. -/
def Forward_Elimination_rounded (rnd : ℚ → ℚ) (Ab : Tensor) : Except Panic Tensor :=
  (List.range' 0 (Ab.rows - 1 - 0)).foldlM (forwardStep_rounded rnd) Ab

/-- The normalising loop of `RREF`, `Ab[k,j] = Ab[k,j] / f`, rounded. -/
def normaliseRow_rounded (rnd : ℚ → ℚ) (Ab : Tensor) (k : Nat) (f : ℚ) : Tensor :=
  (List.range' k (Ab.rows + 1 - k)).foldl
    (fun Ab j => Ab.put (k * Ab.cols + j) (rnd (Ab.get (k * Ab.cols + j) / f)))
    Ab

/-- The loop over the rows above row `k` in `RREF`, rounded. -/
def eliminateAbove_rounded (rnd : ℚ → ℚ) (Ab : Tensor) (k : Nat) : Tensor :=
  (List.range' 0 (k - 0)).foldl
    (fun Ab i =>
      let f := Ab.get (i * Ab.cols + k)
      subtractRow_rounded rnd Ab k i f)
    Ab

/-- One iteration of the outer loop of `RREF`, rounded: the `f == 0` test sees the stored,
rounded value. -/
def rrefStep_rounded (rnd : ℚ → ℚ) (Ab : Tensor) (k : Nat) : Except Panic Tensor := do
  let f := Ab.get (k * Ab.cols + k)
  if f = 0 then throw Panic.RREFNoUniqueSolution
  let Ab := normaliseRow_rounded rnd Ab k f
  pure (eliminateAbove_rounded rnd Ab k)

/-- `RREF` with every arithmetic operation rounded by `rnd`. -/
def RREF_rounded (rnd : ℚ → ℚ) (Ab : Tensor) : Except Panic Tensor :=
  (List.range Ab.rows).reverse.foldlM (rrefStep_rounded rnd) Ab

/-- `GaussJordanElimination.Execute` with every arithmetic operation rounded by `rnd`. -/
def GaussJordanElimination.Execute_rounded (rnd : ℚ → ℚ) (A b : Tensor) :
    Except Panic Tensor := do
  let b := if b.Shape.length = 1 then b.Add_Singleton else b
  let Ab ← Augment_Matrix A b
  let Ab ← Forward_Elimination_rounded rnd Ab
  let Ab ← RREF_rounded rnd Ab
  Ab.Remove_Dim 1 3

/-! # Theorems -/

/-! ## Loop principles -/

theorem foldl_range'_invariant {σ : Type} (f : σ → Nat → σ) (P : Nat → σ → Prop)
    (cnt : Nat) : ∀ (lo : Nat) (s : σ), P lo s →
    (∀ i s, lo ≤ i → i < lo + cnt → P i s → P (i + 1) (f s i)) →
    P (lo + cnt) ((List.range' lo cnt).foldl f s) := by
  induction cnt with
  | zero => intro lo s h0 _; simpa using h0
  | succ m ih =>
    intro lo s h0 hstep
    rw [List.range'_succ, List.foldl_cons]
    have h1 : P (lo + 1) (f s lo) := hstep lo s (Nat.le_refl _) (by omega) h0
    have := ih (lo + 1) (f s lo) h1 (fun i s hi hi2 hP => hstep i s (by omega) (by omega) hP)
    rwa [show lo + (m + 1) = lo + 1 + m by omega]

theorem foldl_range_reverse_invariant {σ : Type} (f : σ → Nat → σ) (P : Nat → σ → Prop)
    (n : Nat) (s : σ) (h0 : P n s)
    (hstep : ∀ i s, i < n → P (i + 1) s → P i (f s i)) :
    P 0 ((List.range n).reverse.foldl f s) := by
  induction n generalizing s with
  | zero => simpa using h0
  | succ m ih =>
    rw [List.range_succ, List.reverse_append, List.reverse_singleton, List.singleton_append,
      List.foldl_cons]
    exact ih (f s m) (hstep m s (by omega) h0) (fun i s hi hP => hstep i s (by omega) hP)

/-! ## Buffer reads and writes -/

theorem Tensor.put_Shape (A : Tensor) (p : Nat) (v : ℚ) : (A.put p v).Shape = A.Shape := rfl

theorem Tensor.put_rows (A : Tensor) (p : Nat) (v : ℚ) : (A.put p v).rows = A.rows := rfl

theorem Tensor.put_cols (A : Tensor) (p : Nat) (v : ℚ) : (A.put p v).cols = A.cols := rfl

theorem Tensor.put_length (A : Tensor) (p : Nat) (v : ℚ) :
    (A.put p v).Data.length = A.Data.length := by
  simp [Tensor.put]

theorem Tensor.get_put_eq (A : Tensor) (p : Nat) (v : ℚ) (h : p < A.Data.length) :
    (A.put p v).get p = v := by
  simp [Tensor.put, Tensor.get, List.getD_eq_getElem?_getD, h]

theorem Tensor.get_put_ne (A : Tensor) (p q : Nat) (v : ℚ) (h : q ≠ p) :
    (A.put p v).get q = A.get q := by
  simp [Tensor.put, Tensor.get, List.getD_eq_getElem?_getD, List.getElem?_set_ne (Ne.symm h)]

theorem Tensor.IsMatrix.rows_eq {A : Tensor} {r c : Nat} (h : A.IsMatrix r c) : A.rows = r := by
  simp [Tensor.rows, h.1]

theorem Tensor.IsMatrix.cols_eq {A : Tensor} {r c : Nat} (h : A.IsMatrix r c) : A.cols = c := by
  simp [Tensor.cols, h.1]

theorem flat_lt {rows cols a b : Nat} (ha : a < rows) (hb : b < cols) :
    a * cols + b < rows * cols := by
  have h : (a + 1) * cols ≤ rows * cols := Nat.mul_le_mul_right cols ha
  rw [Nat.succ_mul] at h
  omega

theorem flat_inj {c i j i' j' : Nat} (hj : j < c) (hj' : j' < c)
    (h : i * c + j = i' * c + j') : i = i' ∧ j = j' := by
  have h1 : (i * c + j) / c = i := by
    rw [Nat.add_comm, Nat.add_mul_div_right _ _ (by omega), Nat.div_eq_of_lt hj]; simp
  have h2 : (i' * c + j') / c = i' := by
    rw [Nat.add_comm, Nat.add_mul_div_right _ _ (by omega), Nat.div_eq_of_lt hj']; simp
  have hi : i = i' := by rw [← h1, ← h2, h]
  subst hi
  exact ⟨rfl, by omega⟩

theorem Tensor.ext_of_get {A B : Tensor} (hs : A.Shape = B.Shape)
    (hl : A.Data.length = B.Data.length)
    (h : ∀ q, q < A.Data.length → A.get q = B.get q) : A = B := by
  cases A with
  | mk dA sA =>
    cases B with
    | mk dB sB =>
      simp only [Tensor.mk.injEq]
      refine ⟨?_, hs⟩
      apply List.ext_getElem hl
      intro q h1 h2
      have := h q h1
      simpa [Tensor.get, List.getD_eq_getElem?_getD, List.getElem?_eq_getElem h1,
        List.getElem?_eq_getElem h2] using this

theorem Tensor.ext_of_entry {A B : Tensor} {r c : Nat} (hA : A.IsMatrix r c)
    (hB : B.IsMatrix r c) (h : ∀ i, i < r → ∀ j, j < c → A.entry i j = B.entry i j) :
    A = B := by
  apply Tensor.ext_of_get (hA.1.trans hB.1.symm) (hA.2.trans hB.2.symm)
  intro q hq
  rw [hA.2] at hq
  have hc : 0 < c := by
    rcases Nat.eq_zero_or_pos c with h0 | h0
    · subst h0; simp at hq
    · exact h0
  have hi : q / c < r := by
    rw [Nat.div_lt_iff_lt_mul hc]; exact hq
  have hj : q % c < c := Nat.mod_lt _ hc
  have := h (q / c) hi (q % c) hj
  simp only [Tensor.entry, hA.cols_eq, hB.cols_eq] at this
  rwa [Nat.div_add_mod' q c] at this

/-! ## Row primitives -/

theorem Zero_Tensor_get (shape : List Nat) (b : Bool) (q : Nat) :
    (Zero_Tensor shape b).get q = 0 := by
  simp only [Zero_Tensor, Tensor.get, List.getD_eq_getElem?_getD]
  rcases lt_or_le q (List.replicate shape.prod (0 : ℚ)).length with h | h
  · rw [List.getElem?_eq_getElem h]; simp
  · rw [List.getElem?_eq_none h]; simp

theorem Tensor.cols_of_Shape {B : Tensor} {a b : Nat} (h : B.Shape = [a, b]) : B.cols = b := by
  simp [Tensor.cols, h]

theorem Tensor.Get_Row_spec (A : Tensor) (row : Nat) :
    (A.Get_Row row).Shape = [1, A.cols] ∧ (A.Get_Row row).Data.length = A.cols ∧
    ∀ q, q < A.cols → (A.Get_Row row).get q = A.get (row * A.cols + q) := by
  have key := foldl_range'_invariant
    (fun (B : Tensor) i => B.put i (A.get (row * A.cols + i)))
    (fun i B => B.Shape = [1, A.cols] ∧ B.Data.length = A.cols ∧
      ∀ q, q < i → B.get q = A.get (row * A.cols + q))
    (A.cols - 0) 0 (Zero_Tensor [1, A.cols] false)
    (by simp [Zero_Tensor])
    (by
      intro i B _ hi hB
      obtain ⟨h1, h2, h3⟩ := hB
      refine ⟨by rw [Tensor.put_Shape, h1], by rw [Tensor.put_length, h2], ?_⟩
      intro q hq
      rcases Nat.lt_or_ge q i with h | h
      · rw [Tensor.get_put_ne _ _ _ _ (by omega)]; exact h3 q h
      · have : q = i := by omega
        subst this
        rw [Tensor.get_put_eq _ _ _ (by omega)])
  simp only [Nat.zero_add, Nat.sub_zero] at key
  exact key

theorem Tensor.Set_Row_spec {A : Tensor} {r c : Nat} (hA : A.IsMatrix r c) {row : Nat}
    (hrow : row < r) (B : Tensor) (hB : B.cols = c) :
    ∃ A', A.Set_Row row B = .ok A' ∧ A'.IsMatrix r c ∧
      ∀ i, i < r → ∀ j, j < c →
        A'.entry i j = if i = row then B.get j else A.entry i j := by
  have hc := hA.cols_eq
  have key := foldl_range'_invariant
    (fun (A : Tensor) i => A.put (row * A.cols + i) (B.get i))
    (fun m A' => A'.IsMatrix r c ∧ ∀ i, i < r → ∀ j, j < c →
        A'.entry i j = if i = row ∧ j < m then B.get j else A.entry i j)
    (A.cols - 0) 0 A
    (by simp [hA])
    (by
      intro m A' _ hm hA'
      obtain ⟨h1, h2⟩ := hA'
      have hc' := h1.cols_eq
      rw [hc] at hm
      refine ⟨⟨by rw [Tensor.put_Shape, h1.1], by rw [Tensor.put_length, h1.2]⟩, ?_⟩
      intro i hi j hj
      simp only [Tensor.entry, Tensor.put_cols, hc']
      by_cases hij : i = row ∧ j = m
      · obtain ⟨rfl, rfl⟩ := hij
        rw [Tensor.get_put_eq _ _ _ (by rw [h1.2]; exact flat_lt hi hj)]
        simp
      · rw [Tensor.get_put_ne]
        · have := h2 i hi j hj
          simp only [Tensor.entry, hc'] at this
          rw [this]
          by_cases hir : i = row
          · have : j ≠ m := fun h => hij ⟨hir, h⟩
            have e : (j < m + 1) = (j < m) := by
              apply propext; constructor <;> intro h <;> omega
            simp [hir, e]
          · simp [hir]
        · intro h
          have := flat_inj hj (by omega) h
          exact hij this)
  simp only [Nat.zero_add, Nat.sub_zero, hc] at key
  refine ⟨_, ?_, key.1, ?_⟩
  · simp only [Tensor.Set_Row, hc, hB, ne_eq, not_true_eq_false, if_false, Nat.sub_zero]
    rfl
  · intro i hi j hj
    have := key.2 i hi j hj
    simpa [hj] using this

theorem Tensor.Swap_Rows_spec {A : Tensor} {r c : Nat} (hA : A.IsMatrix r c) {i j : Nat}
    (hi : i < r) (hj : j < r) :
    ∃ A', A.Swap_Rows i j = .ok A' ∧ A'.IsMatrix r c ∧
      ∀ a, a < r → ∀ b, b < c →
        A'.entry a b = if a = j then A.entry i b else if a = i then A.entry j b
          else A.entry a b := by
  have hc := hA.cols_eq
  obtain ⟨gi1, gi2, gi3⟩ := A.Get_Row_spec i
  obtain ⟨gj1, gj2, gj3⟩ := A.Get_Row_spec j
  obtain ⟨A1, e1, m1, s1⟩ := Tensor.Set_Row_spec hA hi (A.Get_Row j)
    ((Tensor.cols_of_Shape gj1).trans hc)
  obtain ⟨A2, e2, m2, s2⟩ := Tensor.Set_Row_spec m1 hj (A.Get_Row i).Copy
    ((@Tensor.cols_of_Shape (A.Get_Row i).Copy 1 A.cols gi1).trans hc)
  refine ⟨A2, ?_, m2, ?_⟩
  · simp only [Tensor.Swap_Rows, e1]
    exact e2
  · intro a ha b hb
    rw [s2 a ha b hb, s1 a ha b hb]
    have hb' : b < A.cols := by omega
    by_cases h1 : a = j
    · simp only [h1, if_true, Tensor.Copy]
      exact gi3 b hb'
    · simp only [h1, if_false]
      by_cases h2 : a = i
      · simp only [h2, if_true]
        exact gj3 b hb'
      · simp [h2]

/-! ## Pivot search and row subtraction -/

theorem Find_Pivot_spec (A : Tensor) {n k : Nat} (hn : A.rows = n) (hk : k < n) :
    k ≤ Find_Pivot A k ∧ Find_Pivot A k < n ∧
    (∀ i, k ≤ i → i < n → |A.entry i k| ≤ |A.entry (Find_Pivot A k) k|) ∧
    (∀ i, k ≤ i → i < Find_Pivot A k → |A.entry i k| < |A.entry (Find_Pivot A k) k|) := by
  have key := foldl_range'_invariant
    (fun (s : Nat × ℚ) i =>
      if |A.get (i * A.cols + k)| > s.2 then (i, |A.get (i * A.cols + k)|) else s)
    (fun m s => (m = k ∧ s = (k, 0)) ∨
      (k < m ∧ k ≤ s.1 ∧ s.1 < m ∧ s.2 = |A.entry s.1 k| ∧
        (∀ i, k ≤ i → i < m → |A.entry i k| ≤ s.2) ∧
        (∀ i, k ≤ i → i < s.1 → |A.entry i k| < s.2)))
    (A.rows - k) k (k, 0) (Or.inl ⟨rfl, rfl⟩)
    (by
      intro m s hm _ hP
      right
      rcases hP with ⟨rfl, rfl⟩ | ⟨h1, h2, h3, h4, h5, h6⟩
      · by_cases hgt : |A.get (m * A.cols + m)| > 0
        · simp only [hgt, if_true]
          refine ⟨by omega, le_refl _, by omega, rfl, ?_, ?_⟩
          · intro i hi1 hi2
            have : i = m := by omega
            subst this; exact le_refl _
          · intro i hi1 hi2; omega
        · simp only [hgt, if_false]
          have h0 : |A.entry m m| = 0 :=
            le_antisymm (not_lt.mp hgt) (abs_nonneg _)
          refine ⟨by omega, le_refl _, by omega, h0.symm, ?_, ?_⟩
          · intro i hi1 hi2
            have : i = m := by omega
            subst this; exact le_of_eq h0
          · intro i hi1 hi2; omega
      · by_cases hgt : |A.get (m * A.cols + k)| > s.2
        · simp only [hgt, if_true]
          refine ⟨by omega, hm, by omega, rfl, ?_, ?_⟩
          · intro i hi1 hi2
            rcases Nat.lt_or_ge i m with h | h
            · exact le_trans (h5 i hi1 h) (le_of_lt hgt)
            · have : i = m := by omega
              subst this; exact le_refl _
          · intro i hi1 hi2
            exact lt_of_le_of_lt (h5 i hi1 hi2) hgt
        · simp only [hgt, if_false]
          refine ⟨by omega, h2, by omega, h4, ?_, h6⟩
          intro i hi1 hi2
          rcases Nat.lt_or_ge i m with h | h
          · exact h5 i hi1 h
          · have : i = m := by omega
            subst this; exact not_lt.mp hgt)
  rw [hn, show k + (n - k) = n by omega] at key
  rcases key with ⟨h, _⟩ | ⟨_, h2, h3, h4, h5, h6⟩
  · omega
  · have e : Find_Pivot A k = ((List.range' k (n - k)).foldl
        (fun (s : Nat × ℚ) i =>
          if |A.get (i * A.cols + k)| > s.2 then (i, |A.get (i * A.cols + k)|) else s)
        (k, 0)).1 := by
      simp only [Find_Pivot, hn]
    rw [e]
    refine ⟨h2, h3, ?_, ?_⟩
    · intro i hi1 hi2; rw [← h4]; exact h5 i hi1 hi2
    · intro i hi1 hi2; rw [← h4]; exact h6 i hi1 hi2

theorem Tensor.entry_put {S : Tensor} {r c : Nat} (hS : S.IsMatrix r c) {i j a b : Nat}
    (hi : i < r) (hj : j < c) (hb : b < c) (v : ℚ) :
    (S.put (i * S.cols + j) v).entry a b = if a = i ∧ b = j then v else S.entry a b := by
  have hc := hS.cols_eq
  simp only [Tensor.entry, Tensor.put_cols, hc]
  by_cases hab : a = i ∧ b = j
  · obtain ⟨rfl, rfl⟩ := hab
    rw [Tensor.get_put_eq _ _ _ (by rw [hS.2]; exact flat_lt hi hj), if_pos ⟨rfl, rfl⟩]
  · rw [if_neg hab, Tensor.get_put_ne]
    intro h
    exact hab (flat_inj hb hj h)

theorem Tensor.put_IsMatrix {S : Tensor} {r c : Nat} (hS : S.IsMatrix r c) (p : Nat) (v : ℚ) :
    (S.put p v).IsMatrix r c :=
  ⟨by rw [Tensor.put_Shape, hS.1], by rw [Tensor.put_length, hS.2]⟩

theorem subtractRow_spec {Ab : Tensor} {n : Nat} (hAb : Ab.IsMatrix n (n + 1)) {k i : Nat}
    (hk : k < n) (hi : i < n) (hik : i ≠ k) (f : ℚ) :
    (subtractRow Ab k i f).IsMatrix n (n + 1) ∧
    ∀ a, a < n → ∀ b, b < n + 1 →
      (subtractRow Ab k i f).entry a b =
        if a = i ∧ k ≤ b then Ab.entry i b - Ab.entry k b * f else Ab.entry a b := by
  have hr := hAb.rows_eq
  have key := foldl_range'_invariant
    (fun (Ab : Tensor) j =>
      Ab.put (i * Ab.cols + j) (Ab.get (i * Ab.cols + j) - Ab.get (k * Ab.cols + j) * f))
    (fun m S => S.IsMatrix n (n + 1) ∧ ∀ a, a < n → ∀ b, b < n + 1 →
        S.entry a b =
          if a = i ∧ k ≤ b ∧ b < m then Ab.entry i b - Ab.entry k b * f else Ab.entry a b)
    (Ab.rows + 1 - k) k Ab
    (by
      refine ⟨hAb, ?_⟩
      intro a _ b _
      rw [if_neg (by omega)])
    (by
      intro m S hm1 hm2 hS
      obtain ⟨h1, h2⟩ := hS
      rw [hr] at hm2
      have hm : m < n + 1 := by omega
      refine ⟨Tensor.put_IsMatrix h1 _ _, ?_⟩
      intro a ha b hb
      rw [Tensor.entry_put h1 hi hm hb]
      change (if a = i ∧ b = m then S.entry i m - S.entry k m * f else S.entry a b) = _
      by_cases hab : a = i ∧ b = m
      · obtain ⟨rfl, rfl⟩ := hab
        rw [if_pos ⟨rfl, rfl⟩, h2 a ha b hb, h2 k hk b hb, if_neg (by omega),
          if_neg (by omega), if_pos (by omega)]
      · rw [if_neg hab, h2 a ha b hb]
        apply if_congr _ rfl rfl
        constructor
        · intro h; exact ⟨h.1, h.2.1, by omega⟩
        · intro h
          refine ⟨h.1, h.2.1, ?_⟩
          have : b ≠ m := fun h' => hab ⟨h.1, h'⟩
          omega)
  rw [hr, show k + (n + 1 - k) = n + 1 by omega] at key
  have e : subtractRow Ab k i f = (List.range' k (n + 1 - k)).foldl
      (fun (Ab : Tensor) j =>
        Ab.put (i * Ab.cols + j) (Ab.get (i * Ab.cols + j) - Ab.get (k * Ab.cols + j) * f))
      Ab := by
    simp only [subtractRow, hr]
  rw [e]
  refine ⟨key.1, ?_⟩
  intro a ha b hb
  rw [key.2 a ha b hb]
  apply if_congr _ rfl rfl
  constructor
  · intro h; exact ⟨h.1, h.2.1⟩
  · intro h; exact ⟨h.1, h.2, hb⟩

theorem eliminateBelow_spec {Ab : Tensor} {n : Nat} (hAb : Ab.IsMatrix n (n + 1)) {k : Nat}
    (hk : k < n) :
    (eliminateBelow Ab k).IsMatrix n (n + 1) ∧
    ∀ a, a < n → ∀ b, b < n + 1 →
      (eliminateBelow Ab k).entry a b =
        if k < a ∧ k ≤ b then
          Ab.entry a b - Ab.entry k b * (Ab.entry a k / Ab.entry k k)
        else Ab.entry a b := by
  have hr := hAb.rows_eq
  have key := foldl_range'_invariant
    (fun (Ab : Tensor) i =>
      let f := Ab.get (i * Ab.cols + k) / Ab.get (k * Ab.cols + k)
      subtractRow Ab k i f)
    (fun m S => S.IsMatrix n (n + 1) ∧ ∀ a, a < n → ∀ b, b < n + 1 →
        S.entry a b =
          if k < a ∧ a < m ∧ k ≤ b then
            Ab.entry a b - Ab.entry k b * (Ab.entry a k / Ab.entry k k)
          else Ab.entry a b)
    (Ab.rows - (k + 1)) (k + 1) Ab
    (by
      refine ⟨hAb, ?_⟩
      intro a _ b _
      rw [if_neg (by omega)])
    (by
      intro m S hm1 hm2 hS
      obtain ⟨h1, h2⟩ := hS
      rw [hr] at hm2
      have hm : m < n := by omega
      obtain ⟨s1, s2⟩ := subtractRow_spec h1 hk hm (by omega)
        (S.entry m k / S.entry k k)
      refine ⟨s1, ?_⟩
      intro a ha b hb
      change (subtractRow S k m (S.entry m k / S.entry k k)).entry a b = _
      rw [s2 a ha b hb]
      have emk := h2 m hm k (by omega)
      have ekk := h2 k hk k (by omega)
      rw [if_neg (by omega)] at emk ekk
      rw [emk, ekk]
      by_cases hab : a = m ∧ k ≤ b
      · obtain ⟨rfl, hkb⟩ := hab
        rw [if_pos ⟨rfl, hkb⟩, h2 a ha b hb, h2 k hk b hb, if_neg (by omega),
          if_neg (by omega), if_pos (by omega)]
      · rw [if_neg hab, h2 a ha b hb]
        apply if_congr _ rfl rfl
        constructor
        · intro h
          refine ⟨h.1, ?_, h.2.2⟩
          have := h.2.1; omega
        · intro h
          refine ⟨h.1, ?_, h.2.2⟩
          have : a ≠ m := fun h' => hab ⟨h', h.2.2⟩
          have := h.2.1
          omega)
  rw [hr, show k + 1 + (n - (k + 1)) = n by omega] at key
  have e : eliminateBelow Ab k = (List.range' (k + 1) (n - (k + 1))).foldl
      (fun (Ab : Tensor) i =>
        let f := Ab.get (i * Ab.cols + k) / Ab.get (k * Ab.cols + k)
        subtractRow Ab k i f)
      Ab := by
    simp only [eliminateBelow, hr]
  rw [e]
  refine ⟨key.1, ?_⟩
  intro a ha b hb
  rw [key.2 a ha b hb]
  apply if_congr _ rfl rfl
  constructor
  · intro h; exact ⟨h.1, h.2.2⟩
  · intro h; exact ⟨h.1, ha, h.2⟩

/-! ## Row operations: solution set and determinant -/

theorem swapIndex_lt {n k p a : Nat} (hk : k < n) (hp : p < n) (ha : a < n) :
    swapIndex k p a < n := by
  unfold swapIndex; split_ifs <;> assumption

theorem swapIndex_involutive (k p a : Nat) : swapIndex k p (swapIndex k p a) = a := by
  unfold swapIndex; split_ifs <;> omega

theorem solves_of_swap {S Ab : Tensor} {n k p : Nat} (hk : k < n) (hp : p < n)
    (h : ∀ a, a < n → ∀ b, b < n + 1 → S.entry a b = Ab.entry (swapIndex k p a) b)
    (x : Nat → ℚ) : S.Solves n x ↔ Ab.Solves n x := by
  have row : ∀ a, a < n →
      (∑ j in Finset.range n, S.entry a j * x j = S.entry a n ↔
        ∑ j in Finset.range n, Ab.entry (swapIndex k p a) j * x j
          = Ab.entry (swapIndex k p a) n) := by
    intro a ha
    rw [h a ha n (by omega)]
    have : ∑ j in Finset.range n, S.entry a j * x j
        = ∑ j in Finset.range n, Ab.entry (swapIndex k p a) j * x j := by
      apply Finset.sum_congr rfl
      intro j hj
      rw [h a ha j (by have := Finset.mem_range.mp hj; omega)]
    rw [this]
  constructor
  · intro hS i hi
    have := (row (swapIndex k p i) (swapIndex_lt hk hp hi)).mp
      (hS _ (swapIndex_lt hk hp hi))
    rwa [swapIndex_involutive] at this
  · intro hA a ha
    exact (row a ha).mpr (hA _ (swapIndex_lt hk hp ha))

theorem det_of_swap {S Ab : Tensor} {n k p : Nat} (hk : k < n) (hp : p < n)
    (h : ∀ a, a < n → ∀ b, b < n + 1 → S.entry a b = Ab.entry (swapIndex k p a) b) :
    (S.toMatrix n).det = 0 ↔ (Ab.toMatrix n).det = 0 := by
  have e : S.toMatrix n = (Ab.toMatrix n).submatrix (Equiv.swap ⟨k, hk⟩ ⟨p, hp⟩) id := by
    ext a b
    simp only [Tensor.toMatrix, Matrix.submatrix_apply, id]
    rw [h a a.2 b (by omega)]
    congr 1
    rw [Equiv.swap_apply_def]
    unfold swapIndex
    by_cases h1 : a = ⟨k, hk⟩
    · subst h1
      by_cases h2 : k = p
      · subst h2; simp
      · have : (⟨k, hk⟩ : Fin n) ≠ ⟨p, hp⟩ := by
          intro h'; exact h2 (Fin.mk.inj_iff.mp h')
        simp [h2]
    · have h1' : (a : Nat) ≠ k := fun h' => h1 (Fin.ext h')
      by_cases h2 : a = ⟨p, hp⟩
      · subst h2; simp [h1]
      · have h2' : (a : Nat) ≠ p := fun h' => h2 (Fin.ext h')
        simp [h1, h2, h1', h2']
  rw [e, Matrix.det_permute]
  rcases Int.units_eq_one_or (Equiv.Perm.sign (Equiv.swap (⟨k, hk⟩ : Fin n) ⟨p, hp⟩)) with hs | hs
    <;> rw [hs] <;> simp

theorem solves_of_rowop {R S : Tensor} {n k : Nat} (hk : k < n) (c : Nat → ℚ) (hc : c k = 0)
    (h : ∀ a, a < n → ∀ b, b < n + 1 → R.entry a b = S.entry a b - c a * S.entry k b)
    (x : Nat → ℚ) : R.Solves n x ↔ S.Solves n x := by
  have sum_eq : ∀ a, a < n → ∑ j in Finset.range n, R.entry a j * x j
      = ∑ j in Finset.range n, S.entry a j * x j
        - c a * ∑ j in Finset.range n, S.entry k j * x j := by
    intro a ha
    rw [Finset.mul_sum, ← Finset.sum_sub_distrib]
    apply Finset.sum_congr rfl
    intro j hj
    rw [h a ha j (by have := Finset.mem_range.mp hj; omega)]
    ring
  have rowk : ∑ j in Finset.range n, R.entry k j * x j
      = ∑ j in Finset.range n, S.entry k j * x j := by
    rw [sum_eq k hk, hc]; ring
  have rhsk : R.entry k n = S.entry k n := by
    rw [h k hk n (by omega), hc]; ring
  constructor
  · intro hR
    have hSk : ∑ j in Finset.range n, S.entry k j * x j = S.entry k n := by
      rw [← rowk, ← rhsk]; exact hR k hk
    intro a ha
    have := hR a ha
    rw [sum_eq a ha, h a ha n (by omega), hSk] at this
    linarith
  · intro hS a ha
    rw [sum_eq a ha, h a ha n (by omega), hS a ha, hS k hk]

theorem det_of_rowop {R S : Tensor} {n k : Nat} (hk : k < n) (c : Nat → ℚ) (hc : c k = 0)
    (h : ∀ a, a < n → ∀ b, b < n + 1 → R.entry a b = S.entry a b - c a * S.entry k b) :
    (R.toMatrix n).det = (S.toMatrix n).det := by
  apply Matrix.det_eq_of_forall_row_eq_smul_add_const (fun a : Fin n => - c a) ⟨k, hk⟩
  · simp [hc]
  · intro a b
    simp only [Tensor.toMatrix]
    rw [h a a.2 b (by omega)]
    ring

theorem det_eq_zero_of_column {Ab : Tensor} {n k : Nat} (hk : k < n)
    (below : ∀ i j, j < k → j < i → i < n → Ab.entry i j = 0)
    (col : ∀ i, k ≤ i → i < n → Ab.entry i k = 0) : (Ab.toMatrix n).det = 0 := by
  rw [Matrix.twoBlockTriangular_det (Ab.toMatrix n) (fun i : Fin n => i.val < k)]
  · have : (Matrix.toSquareBlockProp (Ab.toMatrix n) fun i : Fin n => ¬ i.val < k).det = 0 := by
      apply Matrix.det_eq_zero_of_column_eq_zero ⟨⟨k, hk⟩, by simp⟩
      intro i
      have hi : ¬ (i : Fin n).val < k := i.2
      exact col _ (by omega) (i : Fin n).2
    rw [this, mul_zero]
  · intro i hi j hj
    exact below _ _ hj (by omega) i.2

theorem det_of_upper {U : Tensor} {n : Nat}
    (upper : ∀ i j, j < i → i < n → U.entry i j = 0) :
    (U.toMatrix n).det = ∏ i : Fin n, U.entry i i := by
  apply Matrix.det_of_upperTriangular
  intro i j hij
  exact upper _ _ hij i.2

theorem foldlM_range'_outcome {σ ε : Type} (step : σ → Nat → Except ε σ)
    (P : Nat → σ → Prop) (Q : ε → Prop) (cnt : Nat) : ∀ (lo : Nat) (s : σ), P lo s →
    (∀ i s, lo ≤ i → i < lo + cnt → P i s →
      (∃ e, step s i = .error e ∧ Q e) ∨ (∃ s', step s i = .ok s' ∧ P (i + 1) s')) →
    (∃ e, (List.range' lo cnt).foldlM step s = .error e ∧ Q e) ∨
      (∃ s', (List.range' lo cnt).foldlM step s = .ok s' ∧ P (lo + cnt) s') := by
  induction cnt with
  | zero =>
    intro lo s h0 _
    right
    exact ⟨s, rfl, by simpa using h0⟩
  | succ m ih =>
    intro lo s h0 hstep
    rw [List.range'_succ, List.foldlM_cons]
    rcases hstep lo s (Nat.le_refl _) (by omega) h0 with ⟨e, he, hQ⟩ | ⟨s', hs', hP⟩
    · left
      exact ⟨e, by rw [he]; rfl, hQ⟩
    · rw [hs']
      have := ih (lo + 1) s' hP (fun i s hi hi2 hP => hstep i s (by omega) (by omega) hP)
      rw [show lo + (m + 1) = lo + 1 + m by omega]
      exact this

theorem forwardStep_error {Ab : Tensor} {k : Nat}
    (h : Ab.entry (Find_Pivot Ab k) k = 0) :
    forwardStep Ab k = .error Panic.ForwardNoUniqueSolution := by
  have h' : Ab.get (Find_Pivot Ab k * Ab.cols + k) = 0 := h
  simp only [forwardStep, h', if_true]
  rfl

theorem forwardStep_ok {Ab S : Tensor} {k : Nat}
    (h : Ab.entry (Find_Pivot Ab k) k ≠ 0)
    (hS : Ab.Swap_Rows k (Find_Pivot Ab k) = .ok S) :
    forwardStep Ab k = .ok (eliminateBelow S k) := by
  have h' : ¬ Ab.get (Find_Pivot Ab k * Ab.cols + k) = 0 := h
  simp only [forwardStep, h', if_false, hS]
  rfl

theorem forwardStep_spec {Ab0 Ab : Tensor} {n k : Nat} (inv : FwdInv Ab0 Ab n k)
    (hk : k < n) :
    (forwardStep Ab k = .error Panic.ForwardNoUniqueSolution ∧ (Ab0.toMatrix n).det = 0) ∨
    (∃ Ab', forwardStep Ab k = .ok Ab' ∧ FwdInv Ab0 Ab' n (k + 1)) := by
  obtain ⟨p1, p2, p3, _⟩ := Find_Pivot_spec Ab inv.isMatrix.rows_eq hk
  by_cases hz : Ab.entry (Find_Pivot Ab k) k = 0
  · left
    refine ⟨forwardStep_error hz, inv.det.mp ?_⟩
    apply det_eq_zero_of_column hk inv.below
    intro i hi1 hi2
    have := p3 i hi1 hi2
    rw [hz, abs_zero] at this
    exact abs_eq_zero.mp (le_antisymm this (abs_nonneg _))
  · right
    obtain ⟨S, eS, mS, sS⟩ := Tensor.Swap_Rows_spec inv.isMatrix hk p2
    have sS' : ∀ a, a < n → ∀ b, b < n + 1 →
        S.entry a b = Ab.entry (swapIndex k (Find_Pivot Ab k) a) b := by
      intro a ha b hb
      rw [sS a ha b hb]
      unfold swapIndex
      split_ifs <;> rfl
    have sBelow : ∀ i j, j < k → j < i → i < n → S.entry i j = 0 := by
      intro i j hj hji hi
      rw [sS' i hi j (by omega)]
      apply inv.below _ _ hj
      · unfold swapIndex; split_ifs <;> omega
      · exact swapIndex_lt hk p2 hi
    have sDiag : ∀ i, i < k → S.entry i i ≠ 0 := by
      intro i hi
      rw [sS' i (by omega) i (by omega)]
      have : swapIndex k (Find_Pivot Ab k) i = i := by
        unfold swapIndex; split_ifs <;> omega
      rw [this]
      exact inv.diag i hi
    have sPivot : S.entry k k ≠ 0 := by
      rw [sS' k hk k (by omega)]
      have : swapIndex k (Find_Pivot Ab k) k = Find_Pivot Ab k := by
        unfold swapIndex; split_ifs <;> omega
      rw [this]
      exact hz
    obtain ⟨mR, sR⟩ := eliminateBelow_spec mS hk
    have rowop : ∀ a, a < n → ∀ b, b < n + 1 →
        (eliminateBelow S k).entry a b = S.entry a b
          - (if k < a then S.entry a k / S.entry k k else 0) * S.entry k b := by
      intro a ha b hb
      rw [sR a ha b hb]
      by_cases hka : k < a
      · rw [if_pos hka]
        by_cases hkb : k ≤ b
        · rw [if_pos ⟨hka, hkb⟩]; ring
        · rw [if_neg (fun h => hkb h.2), sBelow k b (by omega) (by omega) hk]; ring
      · rw [if_neg hka, if_neg (fun h => hka h.1)]; ring
    refine ⟨eliminateBelow S k, forwardStep_ok hz eS, ⟨mR, ?_, ?_, ?_, ?_⟩⟩
    · intro i j hj hji hi
      rw [sR i hi j (by omega)]
      by_cases hjk : j = k
      · subst hjk
        rw [if_pos ⟨hji, le_refl _⟩]
        field_simp
      · rw [if_neg (by omega)]
        exact sBelow i j (by omega) hji hi
    · intro i hi
      rw [sR i (by omega) i (by omega), if_neg (by omega)]
      rcases Nat.lt_or_ge i k with h | h
      · exact sDiag i h
      · have : i = k := by omega
        subst this; exact sPivot
    · intro x
      rw [solves_of_rowop hk _ (by simp) rowop x, solves_of_swap hk p2 sS' x]
      exact inv.solves x
    · rw [det_of_rowop hk _ (by simp) rowop, det_of_swap hk p2 sS']
      exact inv.det

theorem FwdInv.init {Ab0 : Tensor} {n : Nat} (h : Ab0.IsMatrix n (n + 1)) :
    FwdInv Ab0 Ab0 n 0 :=
  ⟨h, fun _ _ hj => absurd hj (Nat.not_lt_zero _), fun _ hi => absurd hi (Nat.not_lt_zero _),
    fun _ => Iff.rfl, Iff.rfl⟩

theorem Forward_Elimination_spec {Ab0 : Tensor} {n : Nat} (h : Ab0.IsMatrix n (n + 1)) :
    (Forward_Elimination Ab0 = .error Panic.ForwardNoUniqueSolution ∧
      (Ab0.toMatrix n).det = 0) ∨
    (∃ U, Forward_Elimination Ab0 = .ok U ∧ FwdInv Ab0 U n (n - 1)) := by
  have key := foldlM_range'_outcome forwardStep (fun k Ab => FwdInv Ab0 Ab n k)
    (fun e => e = Panic.ForwardNoUniqueSolution ∧ (Ab0.toMatrix n).det = 0)
    (n - 1 - 0) 0 Ab0 (FwdInv.init h)
    (by
      intro k Ab _ hk inv
      rcases forwardStep_spec inv (by omega) with ⟨h1, h2⟩ | h1
      · left; exact ⟨_, h1, rfl, h2⟩
      · right; exact h1)
  simp only [Nat.zero_add, Nat.sub_zero] at key
  have e : Forward_Elimination Ab0 = (List.range' 0 (n - 1)).foldlM forwardStep Ab0 := by
    simp only [Forward_Elimination, h.rows_eq, Nat.sub_zero]
  rw [e]
  rcases key with ⟨e, he, rfl, hd⟩ | h1
  · left; exact ⟨he, hd⟩
  · right; exact h1

/-! ## Back substitution -/

theorem backSum_eq (Ab x : Tensor) {n i : Nat} (hn : Ab.rows = n) (hi : i < n) :
    backSum Ab x i = ∑ j in Finset.Ico (i + 1) n, Ab.entry i j * x.get j := by
  have key := foldl_range'_invariant
    (fun (sum : ℚ) j => sum + Ab.get (i * Ab.cols + j) * x.get j)
    (fun m s => s = ∑ j in Finset.Ico (i + 1) m, Ab.entry i j * x.get j)
    (Ab.rows - (i + 1)) (i + 1) 0 (by simp)
    (by
      intro m s hm _ hs
      rw [Finset.sum_Ico_succ_top hm, hs]
      rfl)
  rw [hn, show i + 1 + (n - (i + 1)) = n by omega] at key
  rw [← key]
  simp only [backSum, hn]

theorem Back_Substitution_spec {Ab A : Tensor} {n : Nat} (hAb : Ab.rows = n)
    (hA : A.rows = n) :
    (Back_Substitution Ab A).IsMatrix n 1 ∧
    ∀ i, i < n → (Back_Substitution Ab A).get i =
      (Ab.entry i n - ∑ j in Finset.Ico (i + 1) n,
        Ab.entry i j * (Back_Substitution Ab A).get j) / Ab.entry i i := by
  have key := foldl_range_reverse_invariant
    (fun (x : Tensor) i =>
      let sum := backSum Ab x i
      x.put i ((Ab.get (i * Ab.cols + A.rows) - sum) / Ab.get (i * Ab.cols + i)))
    (fun m x => x.IsMatrix n 1 ∧ ∀ i, m ≤ i → i < n → x.get i =
      (Ab.entry i n - ∑ j in Finset.Ico (i + 1) n, Ab.entry i j * x.get j) / Ab.entry i i)
    n (Zero_Tensor [n, 1] false)
    (by
      refine ⟨⟨rfl, by simp [Zero_Tensor]⟩, ?_⟩
      intro i h1 h2; omega)
    (by
      intro m x hm hx
      obtain ⟨h1, h2⟩ := hx
      refine ⟨Tensor.put_IsMatrix h1 _ _, ?_⟩
      intro i hmi hi
      have hsum : ∀ i', m ≤ i' →
          ∑ j in Finset.Ico (i' + 1) n, Ab.entry i' j * (x.put m
            ((Ab.get (m * Ab.cols + A.rows) - backSum Ab x m) / Ab.get (m * Ab.cols + m))).get j
          = ∑ j in Finset.Ico (i' + 1) n, Ab.entry i' j * x.get j := by
        intro i' hi'
        apply Finset.sum_congr rfl
        intro j hj
        rw [Tensor.get_put_ne _ _ _ _ (by have := (Finset.mem_Ico.mp hj).1; omega)]
      show (x.put m _).get i = _
      rw [hsum i hmi]
      rcases Nat.lt_or_ge m i with h | h
      · rw [Tensor.get_put_ne _ _ _ _ (by omega)]
        exact h2 i h hi
      · have : i = m := by omega
        subst this
        rw [Tensor.get_put_eq _ _ _ (by rw [h1.2]; omega), backSum_eq Ab x hAb hi, hA]
        rfl)
  have e : Back_Substitution Ab A = (List.range n).reverse.foldl
      (fun (x : Tensor) i =>
        let sum := backSum Ab x i
        x.put i ((Ab.get (i * Ab.cols + A.rows) - sum) / Ab.get (i * Ab.cols + i)))
      (Zero_Tensor [n, 1] false) := by
    simp only [Back_Substitution, hAb]
  rw [e]
  exact ⟨key.1, fun i hi => key.2 i (Nat.zero_le _) hi⟩

theorem solves_of_back_substitution {U : Tensor} {n : Nat} (x : Nat → ℚ)
    (upper : ∀ i j, j < i → i < n → U.entry i j = 0)
    (diag : ∀ i, i < n → U.entry i i ≠ 0)
    (hx : ∀ i, i < n → x i =
      (U.entry i n - ∑ j in Finset.Ico (i + 1) n, U.entry i j * x j) / U.entry i i) :
    U.Solves n x := by
  intro i hi
  rw [← Finset.sum_range_add_sum_Ico _ (show i + 1 ≤ n by omega), Finset.sum_range_succ]
  have z : ∑ j in Finset.range i, U.entry i j * x j = 0 := by
    apply Finset.sum_eq_zero
    intro j hj
    rw [upper i j (Finset.mem_range.mp hj) hi, zero_mul]
  rw [z, zero_add]
  have hd := diag i hi
  have hxi := hx i hi
  have : U.entry i i * x i =
      U.entry i n - ∑ j in Finset.Ico (i + 1) n, U.entry i j * x j := by
    rw [hxi]; field_simp
  rw [this]; ring

/-! ## Augmentation -/

theorem get_map_range (f : Nat → ℚ) (m : Nat) (s : List Nat) {p : Nat} (hp : p < m) :
    (Tensor.mk ((List.range m).map f) s).get p = f p := by
  simp [Tensor.get, List.getD_eq_getElem?_getD, List.getElem?_map, List.getElem?_range hp]

theorem Augment_Matrix_spec {A b : Tensor} {n : Nat} (hA : A.IsMatrix n n)
    (hb : b.IsMatrix n 1) :
    ∃ Ab, Augment_Matrix A b = .ok Ab ∧ Ab.IsMatrix n (n + 1) ∧
      ∀ i, i < n → (∀ j, j < n → Ab.entry i j = A.entry i j) ∧ Ab.entry i n = b.get i := by
  have e : Augment_Matrix A b = .ok ⟨(List.range (n * (n + 1))).map (fun p =>
            if p % (n + 1) < n then A.get (p / (n + 1) * n + p % (n + 1))
            else b.get (p / (n + 1) * 1 + (p % (n + 1) - n))),
          [n, n + 1]⟩ := by
    simp only [Augment_Matrix, hA.rows_eq, hb.rows_eq, hA.cols_eq, hb.cols_eq, ne_eq,
      not_true_eq_false, if_false]
    rfl
  refine ⟨_, e, ⟨rfl, by simp⟩, ?_⟩
  intro i hi
  have div : ∀ j, j < n + 1 → (i * (n + 1) + j) / (n + 1) = i := by
    intro j hj
    rw [Nat.add_comm, Nat.add_mul_div_right _ _ (by omega), Nat.div_eq_of_lt hj]; simp
  have mod : ∀ j, j < n + 1 → (i * (n + 1) + j) % (n + 1) = j := by
    intro j hj
    rw [Nat.add_comm, Nat.add_mul_mod_self_right, Nat.mod_eq_of_lt hj]
  constructor
  · intro j hj
    have hj' : j < n + 1 := by omega
    show Tensor.get _ (i * (n + 1) + j) = A.get (i * A.cols + j)
    rw [get_map_range _ _ _ (flat_lt hi hj'), div j hj', mod j hj', if_pos hj, hA.cols_eq]
  · show Tensor.get _ (i * (n + 1) + n) = b.get i
    rw [get_map_range _ _ _ (flat_lt hi (Nat.lt_succ_self n)), div n (by omega),
      mod n (by omega), if_neg (lt_irrefl n)]
    simp

theorem promote_spec {b : Tensor} {n : Nat} (hb : b.IsVector n ∨ b.IsMatrix n 1) :
    (if b.Shape.length = 1 then b.Add_Singleton else b).IsMatrix n 1 ∧
    ∀ i, (if b.Shape.length = 1 then b.Add_Singleton else b).get i = b.get i := by
  rcases hb with h | h
  · have : b.Shape.length = 1 := by rw [h.1]; rfl
    rw [if_pos this]
    refine ⟨⟨by simp [Tensor.Add_Singleton, h.1], by simp [Tensor.Add_Singleton, h.2]⟩, ?_⟩
    intro i; rfl
  · have : ¬ b.Shape.length = 1 := by rw [h.1]; simp
    rw [if_neg this]
    exact ⟨h, fun _ => rfl⟩

theorem toMatrix_augment {A Ab b : Tensor} {n : Nat}
    (h : ∀ i, i < n → (∀ j, j < n → Ab.entry i j = A.entry i j) ∧ Ab.entry i n = b.get i) :
    Ab.toMatrix n = A.toMatrix n := by
  ext i j
  exact (h i i.2).1 j j.2

theorem mulVec_of_solves {A Ab b : Tensor} {n : Nat} (x : Nat → ℚ)
    (h : ∀ i, i < n → (∀ j, j < n → Ab.entry i j = A.entry i j) ∧ Ab.entry i n = b.get i) :
    Ab.Solves n x ↔
      (A.toMatrix n).mulVec (fun i : Fin n => x i) = fun i : Fin n => b.get i := by
  have row : ∀ i : Fin n, (A.toMatrix n).mulVec (fun i : Fin n => x i) i
      = ∑ j in Finset.range n, Ab.entry i j * x j := by
    intro i
    rw [Finset.sum_range]
    simp only [Matrix.mulVec, Matrix.dotProduct, Tensor.toMatrix]
    apply Finset.sum_congr rfl
    intro j _
    rw [(h i i.2).1 j j.2]
  constructor
  · intro hs
    funext i
    rw [row i, hs i i.2, (h i i.2).2]
  · intro hm i hi
    have := congrFun hm ⟨i, hi⟩
    rw [row ⟨i, hi⟩] at this
    rw [this, (h i hi).2]

theorem det_ne_zero_of_isUnit {n : Nat} {M : Matrix (Fin n) (Fin n) ℚ} (h : IsUnit M) :
    M.det ≠ 0 :=
  isUnit_iff_ne_zero.mp ((Matrix.isUnit_iff_isUnit_det M).mp h)

theorem ok_bind {ε α β : Type} (a : α) (f : α → Except ε β) :
    (Except.ok a >>= f) = f a := rfl

/-- C1. For every `n ≥ 1`, every invertible `n×n` matrix `A` and every length-`n` right-hand
side `b` (a 1-D vector or an `n×1` column), `GaussianElimination.Execute A b` does not fail and
returns an `n×1` tensor `x` with `A·x = b` in exact arithmetic. -/
theorem GaussianElimination_Execute_solves (n : Nat) (hn : 1 ≤ n) (A b : Tensor)
    (hA : A.IsMatrix n n) (hb : b.IsVector n ∨ b.IsMatrix n 1)
    (hinv : IsUnit (A.toMatrix n)) :
    ∃ x, GaussianElimination.Execute A b = .ok x ∧ x.IsMatrix n 1 ∧
      (A.toMatrix n).mulVec (fun i : Fin n => x.get i) = fun i : Fin n => b.get i := by
  obtain ⟨hb', hbget⟩ := promote_spec hb
  obtain ⟨Ab0, eAb, mAb, sAb⟩ := Augment_Matrix_spec hA hb'
  have hdet : (Ab0.toMatrix n).det ≠ 0 := by
    rw [toMatrix_augment sAb]; exact det_ne_zero_of_isUnit hinv
  rcases Forward_Elimination_spec mAb with ⟨_, hd⟩ | ⟨U, eU, inv⟩
  · exact absurd hd hdet
  · have upper : ∀ i j, j < i → i < n → U.entry i j = 0 :=
      fun i j hji hi => inv.below i j (by omega) hji hi
    have hdetU : (U.toMatrix n).det ≠ 0 := fun h => hdet (inv.det.mp h)
    rw [det_of_upper upper] at hdetU
    have diag : ∀ i, i < n → U.entry i i ≠ 0 :=
      fun i hi => Finset.prod_ne_zero_iff.mp hdetU ⟨i, hi⟩ (Finset.mem_univ _)
    obtain ⟨mx, sx⟩ := @Back_Substitution_spec U A n inv.isMatrix.rows_eq
      hA.rows_eq
    refine ⟨Back_Substitution U A, ?_, mx, ?_⟩
    · simp only [GaussianElimination.Execute, eAb, ok_bind, eU]
      rfl
    · have hs : Ab0.Solves n (fun i => (Back_Substitution U A).get i) :=
        (inv.solves _).mp (solves_of_back_substitution _ upper diag sx)
      have := (mulVec_of_solves _ sAb).mp hs
      rw [this]
      funext i
      exact hbget i

/-- C5. For every 2-D tensor `M` of shape `[r, c]` and all row indices `i, j < r` (including
`i = j`), applying `Swap_Rows i j` twice succeeds and yields a tensor whose data and shape are
exactly those of `M`. -/
theorem Swap_Rows_twice (M : Tensor) (r c i j : Nat) (hM : M.IsMatrix r c) (hi : i < r)
    (hj : j < r) :
    (M.Swap_Rows i j >>= fun M' => M'.Swap_Rows i j) = .ok M := by
  obtain ⟨M1, e1, m1, s1⟩ := Tensor.Swap_Rows_spec hM hi hj
  obtain ⟨M2, e2, m2, s2⟩ := Tensor.Swap_Rows_spec m1 hi hj
  have : M2 = M := by
    apply Tensor.ext_of_entry m2 hM
    intro a ha b hb
    rw [s2 a ha b hb, s1 i hi b hb, s1 j hj b hb, s1 a ha b hb]
    split_ifs <;> first | rfl | (subst_vars; rfl) | omega
  rw [e1]
  show M1.Swap_Rows i j = _
  rw [e2, this]

/-! ## Reducers -/

theorem sum_range_getD (l : List ℚ) :
    ∑ i in Finset.range l.length, l.getD i 0 = l.sum := by
  induction l with
  | nil => simp
  | cons a l ih =>
    rw [List.length_cons, Finset.sum_range_succ', List.sum_cons, ← ih, add_comm]
    simp

theorem sum_Ico_get (t : Tensor) :
    ∑ i in Finset.Ico 0 t.Data.length, t.get i = t.Data.sum := by
  rw [← sum_range_getD, Finset.range_eq_Ico]
  rfl

theorem SumAllOperation.Apply_eq (A : Tensor) (start stop : Nat) :
    SumAllOperation.Apply A start stop = some (∑ i in Finset.Ico start stop, A.get i) := by
  rcases Nat.lt_or_ge stop start with h | h
  · have e : stop - start = 0 := by omega
    simp only [SumAllOperation.Apply, e, List.range'_zero, List.foldl_nil]
    rw [Finset.Ico_eq_empty (by omega), Finset.sum_empty]
  · have key := foldl_range'_invariant
      (fun (sum : F64) i => F64.add sum (some (A.get i)))
      (fun m s => s = some (∑ i in Finset.Ico start m, A.get i))
      (stop - start) start (some 0) (by simp)
      (by
        intro m s hm _ hs
        rw [hs, Finset.sum_Ico_succ_top hm]
        rfl)
    rw [show start + (stop - start) = stop by omega] at key
    exact key

theorem AllOperation_eq (t : Tensor) (op : AllOperation) :
    t.AllOperation op = op.CombineResults
      [op.Apply t (0 * (t.Data.length / 4)) (0 * (t.Data.length / 4) + t.Data.length / 4),
       op.Apply t (1 * (t.Data.length / 4)) (1 * (t.Data.length / 4) + t.Data.length / 4),
       op.Apply t (2 * (t.Data.length / 4)) (2 * (t.Data.length / 4) + t.Data.length / 4),
       op.Apply t (3 * (t.Data.length / 4)) t.Data.length] := rfl

theorem CombineResults_four (a b c d : ℚ) :
    SumAllOperation.CombineResults [some a, some b, some c, some d]
      = some (a + b + c + d) := by
  simp [SumAllOperation.CombineResults, F64.add]

theorem sum_four_chunks (f : Nat → ℚ) (n : Nat) :
    ∑ i in Finset.Ico (0 * (n / 4)) (0 * (n / 4) + n / 4), f i
      + ∑ i in Finset.Ico (1 * (n / 4)) (1 * (n / 4) + n / 4), f i
      + ∑ i in Finset.Ico (2 * (n / 4)) (2 * (n / 4) + n / 4), f i
      + ∑ i in Finset.Ico (3 * (n / 4)) n, f i
    = ∑ i in Finset.Ico 0 n, f i := by
  have h3 : 3 * (n / 4) ≤ n := by omega
  rw [show 0 * (n / 4) = 0 by omega, show 0 + n / 4 = 1 * (n / 4) by omega,
    show 1 * (n / 4) + n / 4 = 2 * (n / 4) by omega,
    show 2 * (n / 4) + n / 4 = 3 * (n / 4) by omega,
    Finset.sum_Ico_consecutive f (by omega) (by omega),
    Finset.sum_Ico_consecutive f (by omega) (by omega),
    Finset.sum_Ico_consecutive f (by omega) h3]

/-- C6. For every tensor, of any element count (also fewer than 4 elements, where chunks are
empty, and counts not divisible by 4), `Sum_All` returns exactly the sum of all elements of the
data buffer. -/
theorem Sum_All_eq_sum (t : Tensor) : t.Sum_All = some t.Data.sum := by
  rw [Tensor.Sum_All, AllOperation_eq]
  show SumAllOperation.CombineResults
    [SumAllOperation.Apply t _ _, SumAllOperation.Apply t _ _, SumAllOperation.Apply t _ _,
      SumAllOperation.Apply t _ _] = _
  rw [SumAllOperation.Apply_eq, SumAllOperation.Apply_eq, SumAllOperation.Apply_eq,
    SumAllOperation.Apply_eq, CombineResults_four, sum_four_chunks, sum_Ico_get]

/-- C7. For every tensor whose element count is a positive multiple of 4, `Mean_All` returns
the true overall mean, the sum of all elements divided by the element count. -/
theorem Mean_All_of_multiple_of_four (t : Tensor) (m : Nat) (hm : 0 < m)
    (hlen : t.Data.length = 4 * m) :
    t.Mean_All = some (t.Data.sum / (t.Data.length : ℚ)) := by
  have hq : t.Data.length / 4 = m := by omega
  have hm' : (m : ℚ) ≠ 0 := by exact_mod_cast (Nat.pos_iff_ne_zero.mp hm)
  have hchunk : ∀ s e, e - s = m → MeanAllOperation.Apply t s e
      = some ((∑ i in Finset.Ico s e, t.get i) / (m : ℚ)) := by
    intro s e hse
    simp only [MeanAllOperation.Apply, SumAllOperation.Apply_eq, F64.divCount, hse,
      Nat.pos_iff_ne_zero.mp hm, if_false]
  rw [Tensor.Mean_All, AllOperation_eq]
  show MeanAllOperation.CombineResults
    [MeanAllOperation.Apply t _ _, MeanAllOperation.Apply t _ _, MeanAllOperation.Apply t _ _,
      MeanAllOperation.Apply t _ _] = _
  rw [hchunk _ _ (by omega), hchunk _ _ (by omega), hchunk _ _ (by omega),
    hchunk _ _ (by omega)]
  have hsum := sum_four_chunks (fun i => t.get i) t.Data.length
  rw [sum_Ico_get] at hsum
  rw [← hsum]
  simp only [MeanAllOperation.CombineResults, CombineResults_four, F64.divCount,
    List.length_cons, List.length_nil]
  generalize ∑ i in Finset.Ico (0 * (t.Data.length / 4))
    (0 * (t.Data.length / 4) + t.Data.length / 4), t.get i = S0
  generalize ∑ i in Finset.Ico (1 * (t.Data.length / 4))
    (1 * (t.Data.length / 4) + t.Data.length / 4), t.get i = S1
  generalize ∑ i in Finset.Ico (2 * (t.Data.length / 4))
    (2 * (t.Data.length / 4) + t.Data.length / 4), t.get i = S2
  generalize ∑ i in Finset.Ico (3 * (t.Data.length / 4)) t.Data.length, t.get i = S3
  rw [hlen, if_neg (by omega)]
  congr 1
  push_cast
  rw [div_add_div_same, div_add_div_same, div_add_div_same, div_div, mul_comm]

theorem isUnit_example : IsUnit (Tensor.toMatrix ⟨[2, 1, 1, 3], [2, 2]⟩ 2) := by
  apply (Matrix.isUnit_iff_isUnit_det _).mpr
  apply isUnit_iff_ne_zero.mpr
  simp [Matrix.det_fin_two, Tensor.toMatrix, Tensor.entry, Tensor.get, Tensor.cols]
  norm_num

theorem not_isUnit_example : ¬ IsUnit (Tensor.toMatrix ⟨[1, 2, 1, 2], [2, 2]⟩ 2) := by
  intro h
  have := det_ne_zero_of_isUnit h
  apply this
  simp [Matrix.det_fin_two, Tensor.toMatrix, Tensor.entry, Tensor.get, Tensor.cols]

theorem isUnit_identity_four :
    IsUnit (Tensor.toMatrix ⟨[1, 0, 0, 0, 0, 1, 0, 0, 0, 0, 1, 0, 0, 0, 0, 1], [4, 4]⟩ 4) := by
  have e : Tensor.toMatrix ⟨[1, 0, 0, 0, 0, 1, 0, 0, 0, 0, 1, 0, 0, 0, 0, 1], [4, 4]⟩ 4 = 1 := by
    ext i j
    fin_cases i <;> fin_cases j <;>
      simp [Tensor.toMatrix, Tensor.entry, Tensor.get, Tensor.cols]
  rw [e]
  exact isUnit_one

/-- C1 at the spec's concrete scenario: `A = [[2,1],[1,3]]`, `b = [3,5]` gives
`x = [4/5, 7/5]`, and the general theorem applies to it. -/
theorem GaussianElimination_Execute_solves_witness :
    GaussianElimination.Execute ⟨[2, 1, 1, 3], [2, 2]⟩ ⟨[3, 5], [2]⟩
      = .ok ⟨[4 / 5, 7 / 5], [2, 1]⟩ ∧
    ∃ x, GaussianElimination.Execute ⟨[2, 1, 1, 3], [2, 2]⟩ ⟨[3, 5], [2]⟩ = .ok x ∧
      x.IsMatrix 2 1 ∧
      (Tensor.toMatrix ⟨[2, 1, 1, 3], [2, 2]⟩ 2).mulVec (fun i : Fin 2 => x.get i)
        = fun i : Fin 2 => (Tensor.mk [3, 5] [2]).get i :=
  ⟨by decide!,
    GaussianElimination_Execute_solves 2 (by decide) ⟨[2, 1, 1, 3], [2, 2]⟩ ⟨[3, 5], [2]⟩
      (by decide) (Or.inl (by decide)) isUnit_example⟩

/-- C2 fails on the code: for the invertible `4×4` identity and `b = [5,6,7,8]`,
`GaussianElimination.Execute` returns the solution `[5,6,7,8]` while
`GaussJordanElimination.Execute` returns column 3 of the reduced matrix, `[0,0,0,1]`. -/
theorem GaussJordan_differs_from_Gaussian :
    IsUnit (Tensor.toMatrix ⟨[1, 0, 0, 0, 0, 1, 0, 0, 0, 0, 1, 0, 0, 0, 0, 1], [4, 4]⟩ 4) ∧
    GaussianElimination.Execute
        ⟨[1, 0, 0, 0, 0, 1, 0, 0, 0, 0, 1, 0, 0, 0, 0, 1], [4, 4]⟩ ⟨[5, 6, 7, 8], [4]⟩
      = .ok ⟨[5, 6, 7, 8], [4, 1]⟩ ∧
    GaussJordanElimination.Execute
        ⟨[1, 0, 0, 0, 0, 1, 0, 0, 0, 0, 1, 0, 0, 0, 0, 1], [4, 4]⟩ ⟨[5, 6, 7, 8], [4]⟩
      = .ok ⟨[0, 0, 0, 1], [4]⟩ :=
  ⟨isUnit_identity_four, by decide!, by decide!⟩

/-- C3 fails on the code: for the singular `A = [[1,2],[1,2]]` (a duplicated row) and
`b = [3,5]`, `GaussianElimination.Execute` raises no failure and returns a tensor. -/
theorem GaussianElimination_singular_returns :
    ¬ IsUnit (Tensor.toMatrix ⟨[1, 2, 1, 2], [2, 2]⟩ 2) ∧
    ∃ x, GaussianElimination.Execute ⟨[1, 2, 1, 2], [2, 2]⟩ ⟨[3, 5], [2]⟩ = .ok x :=
  ⟨not_isUnit_example, ⟨⟨[3, 0], [2, 1]⟩, by decide!⟩⟩

/-- C5 at a `3×2` matrix and rows `0` and `2`. -/
theorem Swap_Rows_twice_witness :
    ((Tensor.mk [1, 2, 3, 4, 5, 6] [3, 2]).Swap_Rows 0 2 >>= fun M' => M'.Swap_Rows 0 2)
      = .ok ⟨[1, 2, 3, 4, 5, 6], [3, 2]⟩ :=
  Swap_Rows_twice ⟨[1, 2, 3, 4, 5, 6], [3, 2]⟩ 3 2 0 2 (by decide) (by decide) (by decide)

/-- C7 at an 8-element tensor: the mean is `36 / 8`. -/
theorem Mean_All_of_multiple_of_four_witness :
    (Tensor.mk [1, 2, 3, 4, 5, 6, 7, 8] [8]).Mean_All
      = some ((Tensor.mk [1, 2, 3, 4, 5, 6, 7, 8] [8]).Data.sum
          / ((Tensor.mk [1, 2, 3, 4, 5, 6, 7, 8] [8]).Data.length : ℚ)) :=
  Mean_All_of_multiple_of_four ⟨[1, 2, 3, 4, 5, 6, 7, 8], [8]⟩ 2 (by decide) (by decide)

/-- C8 fails on the code: for the 8-element tensor `[1..8]` `Var_All` returns `21/2`, the sum
of squared deviations `42` divided by the number of chunks `4`, while the variance by its
definition is `42 / 8 = 21/4`. -/
theorem Var_All_differs_from_definition :
    (Tensor.mk [1, 2, 3, 4, 5, 6, 7, 8] [8]).Var_All = some (21 / 2) ∧
    varianceByDefinition [1, 2, 3, 4, 5, 6, 7, 8] = 21 / 4 := by
  decide!

/-- C9 fails on the code: on every zero-length chunk `[s, s)` `MeanAllOperation.Apply` divides
`0` by `float64(0)` and returns a non-finite value, while `SumAllOperation.Apply` and
`VarAllOperation.Apply` return `0`; so `Mean_All` and `Var_All` of the 3-element tensor
`[1,2,3]` are non-finite. -/
theorem MeanAllOperation_Apply_empty_chunk :
    (∀ (t : Tensor) (s : Nat), MeanAllOperation.Apply t s s = none) ∧
    (∀ (t : Tensor) (s : Nat), SumAllOperation.Apply t s s = some 0) ∧
    (∀ (mean : F64) (t : Tensor) (s : Nat), VarAllOperation.Apply mean t s s = some 0) ∧
    (Tensor.mk [1, 2, 3] [3]).Sum_All = some 6 ∧
    (Tensor.mk [1, 2, 3] [3]).Mean_All = none ∧
    (Tensor.mk [1, 2, 3] [3]).Var_All = none := by
  refine ⟨?_, ?_, ?_, by decide!, by decide!, by decide!⟩
  · intro t s
    simp [MeanAllOperation.Apply, SumAllOperation.Apply, F64.divCount]
  · intro t s
    simp [SumAllOperation.Apply]
  · intro mean t s
    simp [VarAllOperation.Apply]

/-- C10 fails on the code: for the `4×4` identity and `b = [5,6,7,8]` the reduced augmented
matrix has augmented column `[5,6,7,8]`, and `GaussJordanElimination.Execute` returns
`[0,0,0,1]`, which is column 3 of that matrix. -/
theorem GaussJordan_returns_column_three :
    (Augment_Matrix ⟨[1, 0, 0, 0, 0, 1, 0, 0, 0, 0, 1, 0, 0, 0, 0, 1], [4, 4]⟩
        (Tensor.mk [5, 6, 7, 8] [4]).Add_Singleton >>= Forward_Elimination >>= RREF)
      = .ok ⟨[1, 0, 0, 0, 5, 0, 1, 0, 0, 6, 0, 0, 1, 0, 7, 0, 0, 0, 1, 8], [4, 5]⟩ ∧
    GaussJordanElimination.Execute
        ⟨[1, 0, 0, 0, 0, 1, 0, 0, 0, 0, 1, 0, 0, 0, 0, 1], [4, 4]⟩ ⟨[5, 6, 7, 8], [4]⟩
      = .ok ⟨[0, 0, 0, 1], [4]⟩ := by
  decide!

/-! ## Contracts of the row primitives and of the elimination phases -/

/-- C12. For every 2-D tensor `M` of shape `[r, c]` and all row indices `i, j < r`,
`Swap_Rows i j` raises no panic and yields a matrix of the same shape whose row `i` is the old
row `j`, whose row `j` is the old row `i` and whose other rows are unchanged; `Get_Row i`
returns a `1×c` tensor holding exactly `M[i, 0..c-1]` (it only reads `M`). -/
theorem Swap_Rows_Get_Row_frame (M : Tensor) (r c i j : Nat) (hM : M.IsMatrix r c)
    (hi : i < r) (hj : j < r) :
    (∃ M', M.Swap_Rows i j = .ok M' ∧ M'.IsMatrix r c ∧
      (∀ b, b < c → M'.entry i b = M.entry j b) ∧
      (∀ b, b < c → M'.entry j b = M.entry i b) ∧
      (∀ a, a < r → a ≠ i → a ≠ j → ∀ b, b < c → M'.entry a b = M.entry a b)) ∧
    ((M.Get_Row i).IsMatrix 1 c ∧ ∀ b, b < c → (M.Get_Row i).get b = M.entry i b) := by
  constructor
  · obtain ⟨M', e, m, s⟩ := Tensor.Swap_Rows_spec hM hi hj
    refine ⟨M', e, m, ?_, ?_, ?_⟩
    · intro b hb
      rw [s i hi b hb]
      by_cases h : i = j
      · rw [if_pos h, h]
      · rw [if_neg h, if_pos rfl]
    · intro b hb
      rw [s j hj b hb, if_pos rfl]
    · intro a ha hai haj b hb
      rw [s a ha b hb, if_neg haj, if_neg hai]
  · obtain ⟨g1, g2, g3⟩ := M.Get_Row_spec i
    rw [hM.cols_eq] at g1 g2 g3
    exact ⟨⟨g1, by rw [g2, Nat.one_mul]⟩,
      fun b hb => by rw [g3 b hb]; simp only [Tensor.entry, hM.cols_eq]⟩

/-- C13. For every `n ≥ 1` and every `n×(n+1)` augmented matrix `Ab` on which
`Forward_Elimination` completes without failure, the result is an `n×(n+1)` matrix that is
upper-triangular in its first `n` columns: entry `(i, j)` is `0` for all `j < i < n`. -/
theorem Forward_Elimination_upper_triangular (n : Nat) (_hn : 1 ≤ n) (Ab U : Tensor)
    (hAb : Ab.IsMatrix n (n + 1)) (hU : Forward_Elimination Ab = .ok U) :
    U.IsMatrix n (n + 1) ∧ ∀ i j, j < i → i < n → U.entry i j = 0 := by
  rcases Forward_Elimination_spec hAb with ⟨e, _⟩ | ⟨U', e, inv⟩
  · rw [e] at hU; cases hU
  · rw [e] at hU
    cases hU
    exact ⟨inv.isMatrix, fun i j hji hi => inv.below i j (by omega) hji hi⟩

/-- C16. For every `n ≥ 1`, every `n×n` tensor `A` and every `n×(n+1)` matrix `Ab = [U | c]`
that is upper-triangular in its first `n` columns with all diagonal entries non-zero,
`Back_Substitution Ab A` returns an `n×1` tensor `x` with
`x[i] = (Ab[i,n] - Σ_{j>i} Ab[i,j]*x[j]) / Ab[i,i]` for every `i < n`, and so `U·x = c`
(the function only reads `Ab`). -/
theorem Back_Substitution_contract (n : Nat) (_hn : 1 ≤ n) (A Ab : Tensor)
    (hA : A.IsMatrix n n) (hAb : Ab.IsMatrix n (n + 1))
    (upper : ∀ i j, j < i → i < n → Ab.entry i j = 0)
    (diag : ∀ i, i < n → Ab.entry i i ≠ 0) :
    (Back_Substitution Ab A).IsMatrix n 1 ∧
    (∀ i, i < n → (Back_Substitution Ab A).get i =
      (Ab.entry i n - ∑ j in Finset.Ico (i + 1) n,
        Ab.entry i j * (Back_Substitution Ab A).get j) / Ab.entry i i) ∧
    Ab.Solves n (fun i => (Back_Substitution Ab A).get i) := by
  obtain ⟨mx, sx⟩ := @Back_Substitution_spec Ab A n hAb.rows_eq hA.rows_eq
  exact ⟨mx, sx, solves_of_back_substitution _ upper diag sx⟩

/-- C17. For every matrix `M` with `r` rows and every `k < r` (`k` below the column count),
`Find_Pivot M k` returns an index `p` with `k ≤ p < r` such that `|M[p,k]| ≥ |M[i,k]|` for all
`i` in `k..r-1` and `|M[p,k]| > |M[i,k]|` for all `i` in `k..p-1`: the lowest index among the
rows of largest absolute value (the function only reads `M`). -/
theorem Find_Pivot_contract (M : Tensor) (r c k : Nat) (hM : M.IsMatrix r c) (hk : k < r)
    (_hkc : k < c) :
    k ≤ Find_Pivot M k ∧ Find_Pivot M k < r ∧
    (∀ i, k ≤ i → i < r → |M.entry i k| ≤ |M.entry (Find_Pivot M k) k|) ∧
    (∀ i, k ≤ i → i < Find_Pivot M k → |M.entry i k| < |M.entry (Find_Pivot M k) k|) :=
  Find_Pivot_spec M hM.rows_eq hk

/-- C19. For every `n ≥ 1` and every `n×(n+1)` augmented matrix `[A | b]` on which
`Forward_Elimination` completes without failure, producing `[U | c]`, the result has the same
shape and the same solutions: for every `x`, `U·x = c` if and only if `A·x = b`. -/
theorem Forward_Elimination_preserves_solutions (n : Nat) (_hn : 1 ≤ n) (Ab U : Tensor)
    (hAb : Ab.IsMatrix n (n + 1)) (hU : Forward_Elimination Ab = .ok U) :
    U.IsMatrix n (n + 1) ∧ ∀ x : Nat → ℚ, Ab.Solves n x ↔ U.Solves n x := by
  rcases Forward_Elimination_spec hAb with ⟨e, _⟩ | ⟨U', e, inv⟩
  · rw [e] at hU; cases hU
  · rw [e] at hU
    cases hU
    exact ⟨inv.isMatrix, fun x => (inv.solves x).symm⟩

theorem forward_example :
    Forward_Elimination ⟨[1, 3, 5, 2, 1, 3], [2, 3]⟩
      = .ok ⟨[2, 1, 3, 0, 5 / 2, 7 / 2], [2, 3]⟩ := by
  decide!

/-- C12 at a `3×2` matrix and rows `0` and `2`. -/
theorem Swap_Rows_Get_Row_frame_witness :
    (∃ M', (Tensor.mk [1, 2, 3, 4, 5, 6] [3, 2]).Swap_Rows 0 2 = .ok M' ∧ M'.IsMatrix 3 2 ∧
      (∀ b, b < 2 → M'.entry 0 b = (Tensor.mk [1, 2, 3, 4, 5, 6] [3, 2]).entry 2 b) ∧
      (∀ b, b < 2 → M'.entry 2 b = (Tensor.mk [1, 2, 3, 4, 5, 6] [3, 2]).entry 0 b) ∧
      (∀ a, a < 3 → a ≠ 0 → a ≠ 2 → ∀ b, b < 2 →
        M'.entry a b = (Tensor.mk [1, 2, 3, 4, 5, 6] [3, 2]).entry a b)) ∧
    (((Tensor.mk [1, 2, 3, 4, 5, 6] [3, 2]).Get_Row 0).IsMatrix 1 2 ∧
      ∀ b, b < 2 → ((Tensor.mk [1, 2, 3, 4, 5, 6] [3, 2]).Get_Row 0).get b
        = (Tensor.mk [1, 2, 3, 4, 5, 6] [3, 2]).entry 0 b) :=
  Swap_Rows_Get_Row_frame ⟨[1, 2, 3, 4, 5, 6], [3, 2]⟩ 3 2 0 2 (by decide) (by decide)
    (by decide)

/-- C13 at `[[1,3,5],[2,1,3]]`: the rows are swapped and the result is `[[2,1,3],[0,5/2,7/2]]`. -/
theorem Forward_Elimination_upper_triangular_witness :
    (Tensor.mk [2, 1, 3, 0, 5 / 2, 7 / 2] [2, 3]).IsMatrix 2 3 ∧
    ∀ i j, j < i → i < 2 → (Tensor.mk [2, 1, 3, 0, 5 / 2, 7 / 2] [2, 3]).entry i j = 0 :=
  Forward_Elimination_upper_triangular 2 (by decide) ⟨[1, 3, 5, 2, 1, 3], [2, 3]⟩
    ⟨[2, 1, 3, 0, 5 / 2, 7 / 2], [2, 3]⟩ (by decide) forward_example

/-- C16 at `[U | c] = [[2,1,3],[0,5/2,7/2]]`. -/
theorem Back_Substitution_contract_witness :
    Back_Substitution ⟨[2, 1, 3, 0, 5 / 2, 7 / 2], [2, 3]⟩ ⟨[1, 3, 2, 1], [2, 2]⟩
      = ⟨[4 / 5, 7 / 5], [2, 1]⟩ ∧
    (Tensor.mk [2, 1, 3, 0, 5 / 2, 7 / 2] [2, 3]).Solves 2 (fun i =>
      (Back_Substitution ⟨[2, 1, 3, 0, 5 / 2, 7 / 2], [2, 3]⟩ ⟨[1, 3, 2, 1], [2, 2]⟩).get i) :=
  ⟨by decide!,
    (Back_Substitution_contract 2 (by decide) ⟨[1, 3, 2, 1], [2, 2]⟩
      ⟨[2, 1, 3, 0, 5 / 2, 7 / 2], [2, 3]⟩ (by decide) (by decide)
      (by
        intro i j hji hi
        have hi' : i = 1 := by omega
        have hj' : j = 0 := by omega
        subst hi' hj'
        decide!)
      (by
        intro i hi
        have h : i = 0 ∨ i = 1 := by omega
        rcases h with rfl | rfl <;> decide!)).2.2⟩

/-- C17 at column `0` of `[[1,2],[-3,4],[3,6]]`: the pivot row is `1`. -/
theorem Find_Pivot_contract_witness :
    Find_Pivot ⟨[1, 2, -3, 4, 3, 6], [3, 2]⟩ 0 = 1 ∧
    0 ≤ Find_Pivot ⟨[1, 2, -3, 4, 3, 6], [3, 2]⟩ 0 ∧
    Find_Pivot ⟨[1, 2, -3, 4, 3, 6], [3, 2]⟩ 0 < 3 ∧
    (∀ i, 0 ≤ i → i < 3 → |(Tensor.mk [1, 2, -3, 4, 3, 6] [3, 2]).entry i 0|
      ≤ |(Tensor.mk [1, 2, -3, 4, 3, 6] [3, 2]).entry
          (Find_Pivot ⟨[1, 2, -3, 4, 3, 6], [3, 2]⟩ 0) 0|) ∧
    (∀ i, 0 ≤ i → i < Find_Pivot ⟨[1, 2, -3, 4, 3, 6], [3, 2]⟩ 0 →
      |(Tensor.mk [1, 2, -3, 4, 3, 6] [3, 2]).entry i 0|
      < |(Tensor.mk [1, 2, -3, 4, 3, 6] [3, 2]).entry
          (Find_Pivot ⟨[1, 2, -3, 4, 3, 6], [3, 2]⟩ 0) 0|) :=
  ⟨by decide!,
    Find_Pivot_contract ⟨[1, 2, -3, 4, 3, 6], [3, 2]⟩ 3 2 0 (by decide) (by decide)
      (by decide)⟩

/-- C19 at `[[1,3,5],[2,1,3]]`. -/
theorem Forward_Elimination_preserves_solutions_witness :
    (Tensor.mk [2, 1, 3, 0, 5 / 2, 7 / 2] [2, 3]).IsMatrix 2 3 ∧
    ∀ x : Nat → ℚ, (Tensor.mk [1, 3, 5, 2, 1, 3] [2, 3]).Solves 2 x
      ↔ (Tensor.mk [2, 1, 3, 0, 5 / 2, 7 / 2] [2, 3]).Solves 2 x :=
  Forward_Elimination_preserves_solutions 2 (by decide) ⟨[1, 3, 5, 2, 1, 3], [2, 3]⟩
    ⟨[2, 1, 3, 0, 5 / 2, 7 / 2], [2, 3]⟩ (by decide) forward_example

theorem Tensor.Set_Row_of_exit (A : Tensor) (row : Nat) (B : Tensor) :
    A.Set_Row row B =
      match (A.Set_Row_exit row B).2 with
      | some e => .error e
      | none => .ok (A.Set_Row_exit row B).1 := by
  unfold Tensor.Set_Row Tensor.Set_Row_exit
  by_cases h : A.cols ≠ B.cols
  · rw [if_pos h, if_pos h]; rfl
  · rw [if_neg h, if_neg h]; rfl

/-- C11. For every 2-D tensor `A` of shape `[r, c]`, row index `i < r` and 2-D tensor `B`
(of shape `[rb, cb]` with at least one row): `Set_Row i B` raises the column-mismatch panic if
and only if `cb ≠ c`, and then `A` is unchanged; otherwise it succeeds, row `i` of `A` holds
the first `c` elements of `B`, and every other row of `A`, and its shape, are unchanged. -/
theorem Set_Row_contract (A B : Tensor) (r c rb cb i : Nat) (hA : A.IsMatrix r c)
    (hB : B.IsMatrix rb cb) (_hrb : 0 < rb) (hi : i < r) :
    (A.Set_Row i B = .error Panic.SetRowColumns ↔ cb ≠ c) ∧
    (cb ≠ c → A.Set_Row_exit i B = (A, some Panic.SetRowColumns)) ∧
    (cb = c → ∃ A', A.Set_Row i B = .ok A' ∧ A.Set_Row_exit i B = (A', none) ∧
      A'.IsMatrix r c ∧ (∀ j, j < c → A'.entry i j = B.get j) ∧
      ∀ a, a < r → a ≠ i → ∀ j, j < c → A'.entry a j = A.entry a j) := by
  have hAc := hA.cols_eq
  have hBc := hB.cols_eq
  have succ : cb = c → ∃ A', A.Set_Row i B = .ok A' ∧ A.Set_Row_exit i B = (A', none) ∧
      A'.IsMatrix r c ∧ (∀ j, j < c → A'.entry i j = B.get j) ∧
      ∀ a, a < r → a ≠ i → ∀ j, j < c → A'.entry a j = A.entry a j := by
    intro hc
    obtain ⟨A', e, m, s⟩ := Tensor.Set_Row_spec hA hi B (hBc.trans hc)
    refine ⟨A', e, ?_, m, ?_, ?_⟩
    · have h : ¬ A.cols ≠ B.cols := by rw [hAc, hBc, hc]; exact fun h => h rfl
      have e' := e
      unfold Tensor.Set_Row at e'
      rw [if_neg h] at e'
      unfold Tensor.Set_Row_exit
      rw [if_neg h]
      have : (List.range' 0 (A.cols - 0)).foldl
          (fun A i_1 => A.put (i * A.cols + i_1) (B.get i_1)) A = A' := by
        injection e'
      rw [this]
    · intro j hj
      rw [s i hi j hj, if_pos rfl]
    · intro a ha hai j hj
      rw [s a ha j hj, if_neg hai]
  have fail : cb ≠ c → A.Set_Row i B = .error Panic.SetRowColumns ∧
      A.Set_Row_exit i B = (A, some Panic.SetRowColumns) := by
    intro hc
    have h : A.cols ≠ B.cols := by rw [hAc, hBc]; exact fun h => hc h.symm
    unfold Tensor.Set_Row Tensor.Set_Row_exit
    rw [if_pos h, if_pos h]
    exact ⟨rfl, rfl⟩
  refine ⟨⟨?_, fun hc => (fail hc).1⟩, fun hc => (fail hc).2, succ⟩
  intro herr hc
  obtain ⟨A', e, _⟩ := succ hc
  rw [e] at herr
  cases herr

/-- C11 with a matching row, `A = [[1,2],[3,4]]`, `B = [[7,8]]`, and with a row of three
columns. -/
theorem Set_Row_contract_witness :
    (Tensor.mk [1, 2, 3, 4] [2, 2]).Set_Row 1 ⟨[7, 8], [1, 2]⟩ = .ok ⟨[1, 2, 7, 8], [2, 2]⟩ ∧
    (Tensor.mk [1, 2, 3, 4] [2, 2]).Set_Row_exit 1 ⟨[7, 8, 9], [1, 3]⟩
      = (⟨[1, 2, 3, 4], [2, 2]⟩, some Panic.SetRowColumns) :=
  ⟨by decide!,
    (Set_Row_contract ⟨[1, 2, 3, 4], [2, 2]⟩ ⟨[7, 8, 9], [1, 3]⟩ 2 2 1 3 1 (by decide)
      (by decide) (by decide) (by decide)).2.1 (by decide)⟩

/-- C14 fails on the code: on `[[1,2,3],[1,2,5]]` `Forward_Elimination` completes without
failure with result `[[1,2,3],[0,0,2]]`, whose last diagonal entry is `0`. -/
theorem Forward_Elimination_zero_last_pivot :
    Forward_Elimination ⟨[1, 2, 3, 1, 2, 5], [2, 3]⟩ = .ok ⟨[1, 2, 3, 0, 0, 2], [2, 3]⟩ ∧
    (Tensor.mk [1, 2, 3, 0, 0, 2] [2, 3]).entry 1 1 = 0 := by
  decide!

/-! ## The weighting of `Mean_All` -/

theorem AllOperation_chunks (t : Tensor) (op : AllOperation) :
    t.AllOperation op = op.CombineResults
      [op.Apply t 0 (t.Data.length / 4),
       op.Apply t (t.Data.length / 4) (2 * (t.Data.length / 4)),
       op.Apply t (2 * (t.Data.length / 4)) (3 * (t.Data.length / 4)),
       op.Apply t (3 * (t.Data.length / 4)) t.Data.length] := by
  rw [AllOperation_eq, Nat.zero_mul, Nat.zero_add, Nat.one_mul,
    show t.Data.length / 4 + t.Data.length / 4 = 2 * (t.Data.length / 4) by omega,
    show 2 * (t.Data.length / 4) + t.Data.length / 4 = 3 * (t.Data.length / 4) by omega]

theorem MeanAllOperation.Apply_of_nonempty (t : Tensor) (start stop : Nat) (h : start < stop) :
    MeanAllOperation.Apply t start stop
      = some (chunkSum t start stop / ((stop - start : Nat) : ℚ)) := by
  have h0 : stop - start ≠ 0 := by omega
  simp only [MeanAllOperation.Apply, SumAllOperation.Apply_eq, F64.divCount, h0, if_false,
    chunkSum]

theorem Mean_All_formula (t : Tensor) (h : 4 ≤ t.Data.length) :
    t.Mean_All = some
      ((chunkSum t 0 (t.Data.length / 4) / ((t.Data.length / 4 : Nat) : ℚ)
        + chunkSum t (t.Data.length / 4) (2 * (t.Data.length / 4))
            / ((t.Data.length / 4 : Nat) : ℚ)
        + chunkSum t (2 * (t.Data.length / 4)) (3 * (t.Data.length / 4))
            / ((t.Data.length / 4 : Nat) : ℚ)
        + chunkSum t (3 * (t.Data.length / 4)) t.Data.length
            / ((t.Data.length - 3 * (t.Data.length / 4) : Nat) : ℚ)) / 4) := by
  have hq : 0 < t.Data.length / 4 := by omega
  rw [Tensor.Mean_All, AllOperation_chunks]
  show MeanAllOperation.CombineResults
    [MeanAllOperation.Apply t _ _, MeanAllOperation.Apply t _ _, MeanAllOperation.Apply t _ _,
      MeanAllOperation.Apply t _ _] = _
  rw [MeanAllOperation.Apply_of_nonempty _ _ _ (by omega),
    MeanAllOperation.Apply_of_nonempty _ _ _ (by omega),
    MeanAllOperation.Apply_of_nonempty _ _ _ (by omega),
    MeanAllOperation.Apply_of_nonempty _ _ _ (by omega)]
  simp only [MeanAllOperation.CombineResults, CombineResults_four, F64.divCount,
    List.length_cons, List.length_nil]
  rw [if_neg (by omega), Nat.sub_zero,
    show 2 * (t.Data.length / 4) - t.Data.length / 4 = t.Data.length / 4 by omega,
    show 3 * (t.Data.length / 4) - 2 * (t.Data.length / 4) = t.Data.length / 4 by omega]
  congr 1

theorem unit_spike_get (m i : Nat) :
    (Tensor.mk (1 :: List.replicate m 0) [m + 1]).get i = if i = 0 then 1 else 0 := by
  cases i with
  | zero => simp [Tensor.get]
  | succ k =>
    simp only [Tensor.get, List.getD_eq_getElem?_getD, List.getElem?_cons_succ,
      Nat.succ_ne_zero, if_false]
    rcases lt_or_le k (List.replicate m (0 : ℚ)).length with h | h
    · rw [List.getElem?_eq_getElem h]; simp
    · rw [List.getElem?_eq_none h]; simp

theorem unit_spike_chunkSum (m start stop : Nat) :
    chunkSum (Tensor.mk (1 :: List.replicate m 0) [m + 1]) start stop
      = if start = 0 ∧ 0 < stop then 1 else 0 := by
  unfold chunkSum
  simp only [unit_spike_get, Finset.sum_ite_eq', Finset.mem_Ico]
  apply if_congr _ rfl rfl
  constructor
  · intro h; exact ⟨by omega, h.2⟩
  · intro h; exact ⟨by omega, h.2⟩

/-- C18. For every element count `n > 4` that is not divisible by 4, `Mean_All` of every
tensor with `n` elements is the unweighted average of the four chunk-local means, the chunks
having `n/4`, `n/4`, `n/4` and `n - 3*(n/4)` elements, and there is a tensor with `n` elements
for which this differs from the true overall mean, the sum of all elements divided by `n`. -/
theorem Mean_All_unweighted_average (n : Nat) (hn : 4 < n) (hdiv : n % 4 ≠ 0) :
    (∀ t : Tensor, t.Data.length = n → t.Mean_All = some
      ((chunkSum t 0 (n / 4) / ((n / 4 : Nat) : ℚ)
        + chunkSum t (n / 4) (2 * (n / 4)) / ((n / 4 : Nat) : ℚ)
        + chunkSum t (2 * (n / 4)) (3 * (n / 4)) / ((n / 4 : Nat) : ℚ)
        + chunkSum t (3 * (n / 4)) n / ((n - 3 * (n / 4) : Nat) : ℚ)) / 4)) ∧
    ∃ t : Tensor, t.Data.length = n ∧ t.Mean_All ≠ some (t.Data.sum / (n : ℚ)) := by
  have formula : ∀ t : Tensor, t.Data.length = n → t.Mean_All = some
      ((chunkSum t 0 (n / 4) / ((n / 4 : Nat) : ℚ)
        + chunkSum t (n / 4) (2 * (n / 4)) / ((n / 4 : Nat) : ℚ)
        + chunkSum t (2 * (n / 4)) (3 * (n / 4)) / ((n / 4 : Nat) : ℚ)
        + chunkSum t (3 * (n / 4)) n / ((n - 3 * (n / 4) : Nat) : ℚ)) / 4) := by
    intro t ht
    have := Mean_All_formula t (by omega)
    rwa [ht] at this
  refine ⟨formula, ⟨1 :: List.replicate (n - 1) 0, [n - 1 + 1]⟩, ?_, ?_⟩
  · simp only [List.length_cons, List.length_replicate]; omega
  · have hlen : (Tensor.mk (1 :: List.replicate (n - 1) 0) [n - 1 + 1]).Data.length = n := by
      simp only [List.length_cons, List.length_replicate]; omega
    rw [formula _ hlen, unit_spike_chunkSum, unit_spike_chunkSum, unit_spike_chunkSum,
      unit_spike_chunkSum, if_pos ⟨rfl, by omega⟩, if_neg (by omega), if_neg (by omega),
      if_neg (by omega)]
    have hq : ((n / 4 : Nat) : ℚ) ≠ 0 := by
      have : n / 4 ≠ 0 := by omega
      exact_mod_cast this
    have hn0 : (n : ℚ) ≠ 0 := by
      have : n ≠ 0 := by omega
      exact_mod_cast this
    have hsum : (1 :: List.replicate (n - 1) (0 : ℚ)).sum = 1 := by simp
    intro h
    rw [Option.some.injEq, hsum] at h
    simp only [zero_div, add_zero] at h
    field_simp at h
    have h' : n = (n / 4) * 4 := by exact_mod_cast h
    omega

/-- C18 at `n = 5`: the tensor `[1,0,0,0,0]` has `Mean_All = 1/4` and true mean `1/5`. -/
theorem Mean_All_unweighted_average_witness :
    (Tensor.mk [1, 0, 0, 0, 0] [5]).Mean_All = some (1 / 4) ∧
    ((∀ t : Tensor, t.Data.length = 5 → t.Mean_All = some
      ((chunkSum t 0 (5 / 4) / ((5 / 4 : Nat) : ℚ)
        + chunkSum t (5 / 4) (2 * (5 / 4)) / ((5 / 4 : Nat) : ℚ)
        + chunkSum t (2 * (5 / 4)) (3 * (5 / 4)) / ((5 / 4 : Nat) : ℚ)
        + chunkSum t (3 * (5 / 4)) 5 / ((5 - 3 * (5 / 4) : Nat) : ℚ)) / 4)) ∧
    ∃ t : Tensor, t.Data.length = 5 ∧ t.Mean_All ≠ some (t.Data.sum / ((5 : Nat) : ℚ))) :=
  ⟨by decide!, Mean_All_unweighted_average 5 (by decide) (by decide)⟩

/-! ## The elimination factors -/

theorem eliminateBelow_eq_upTo (Ab : Tensor) (k : Nat) :
    eliminateBelow Ab k = eliminateBelowUpTo Ab k Ab.rows := rfl

theorem eliminateBelowUpTo_succ (Ab : Tensor) (k m : Nat) (hm : k < m) :
    eliminateBelowUpTo Ab k (m + 1) =
      subtractRow (eliminateBelowUpTo Ab k m) k m
        ((eliminateBelowUpTo Ab k m).entry m k / (eliminateBelowUpTo Ab k m).entry k k) := by
  unfold eliminateBelowUpTo
  rw [show m + 1 - (k + 1) = (m - (k + 1)) + 1 by omega, List.range'_1_concat,
    List.foldl_append, List.foldl_cons, List.foldl_nil,
    show k + 1 + (m - (k + 1)) = m by omega]
  rfl

theorem Forward_Elimination_eq_prefix (Ab : Tensor) :
    Forward_Elimination Ab = forwardPrefix Ab (Ab.rows - 1) := by
  simp only [Forward_Elimination, forwardPrefix, Nat.sub_zero]

theorem forwardPrefix_succ (Ab : Tensor) (k : Nat) :
    forwardPrefix Ab (k + 1) = forwardPrefix Ab k >>= fun S => forwardStep S k := by
  unfold forwardPrefix
  rw [List.range'_1_concat, List.foldlM_append, Nat.zero_add]
  congr 1
  funext S
  simp [List.foldlM_cons]

theorem forwardPrefix_inv {Ab0 Ab : Tensor} {n k : Nat} (h0 : Ab0.IsMatrix n (n + 1))
    (hk : k ≤ n - 1) (h : forwardPrefix Ab0 k = .ok Ab) : FwdInv Ab0 Ab n k := by
  have key := foldlM_range'_outcome forwardStep (fun k Ab => FwdInv Ab0 Ab n k)
    (fun _ => True) k 0 Ab0 (FwdInv.init h0)
    (by
      intro i Ab _ hi inv
      rcases forwardStep_spec inv (by omega) with ⟨h1, _⟩ | h1
      · left; exact ⟨_, h1, trivial⟩
      · right; exact h1)
  rw [Nat.zero_add] at key
  unfold forwardPrefix at h
  rcases key with ⟨e, he, _⟩ | ⟨s', hs', inv⟩
  · rw [he] at h; cases h
  · rw [hs'] at h
    cases h
    exact inv

theorem eliminateBelowUpTo_spec {Ab : Tensor} {n : Nat} (hAb : Ab.IsMatrix n (n + 1))
    {k m : Nat} (hk : k < n) (hkm : k < m) (hm : m ≤ n) :
    (eliminateBelowUpTo Ab k m).IsMatrix n (n + 1) ∧
    ∀ a, a < n → ∀ b, b < n + 1 →
      (eliminateBelowUpTo Ab k m).entry a b =
        if k < a ∧ a < m ∧ k ≤ b then
          Ab.entry a b - Ab.entry k b * (Ab.entry a k / Ab.entry k k)
        else Ab.entry a b := by
  have key := foldl_range'_invariant
    (fun (Ab : Tensor) i =>
      let f := Ab.get (i * Ab.cols + k) / Ab.get (k * Ab.cols + k)
      subtractRow Ab k i f)
    (fun m S => S.IsMatrix n (n + 1) ∧ ∀ a, a < n → ∀ b, b < n + 1 →
        S.entry a b =
          if k < a ∧ a < m ∧ k ≤ b then
            Ab.entry a b - Ab.entry k b * (Ab.entry a k / Ab.entry k k)
          else Ab.entry a b)
    (m - (k + 1)) (k + 1) Ab
    (by
      refine ⟨hAb, ?_⟩
      intro a _ b _
      rw [if_neg (by omega)])
    (by
      intro r S hr1 hr2 hS
      obtain ⟨h1, h2⟩ := hS
      have hr : r < n := by omega
      obtain ⟨s1, s2⟩ := subtractRow_spec h1 hk hr (by omega)
        (S.entry r k / S.entry k k)
      refine ⟨s1, ?_⟩
      intro a ha b hb
      change (subtractRow S k r (S.entry r k / S.entry k k)).entry a b = _
      rw [s2 a ha b hb]
      have erk := h2 r hr k (by omega)
      have ekk := h2 k hk k (by omega)
      rw [if_neg (by omega)] at erk ekk
      rw [erk, ekk]
      by_cases hab : a = r ∧ k ≤ b
      · obtain ⟨rfl, hkb⟩ := hab
        rw [if_pos ⟨rfl, hkb⟩, h2 a ha b hb, h2 k hk b hb, if_neg (by omega),
          if_neg (by omega), if_pos (by omega)]
      · rw [if_neg hab, h2 a ha b hb]
        apply if_congr _ rfl rfl
        constructor
        · intro h
          refine ⟨h.1, ?_, h.2.2⟩
          have := h.2.1; omega
        · intro h
          refine ⟨h.1, ?_, h.2.2⟩
          have : a ≠ r := fun h' => hab ⟨h', h.2.2⟩
          have := h.2.1
          omega)
  rw [show k + 1 + (m - (k + 1)) = m by omega] at key
  exact key

/-- C20. At every iteration `k` of `Forward_Elimination` on an `n×(n+1)` matrix that passes
the zero-pivot check, the swap succeeds, after it the pivot `Ab[k,k]` is non-zero and has the
largest absolute value among `Ab[k..n-1, k]`, and for every row `i > k` the factor
`f = Ab[i,k] / Ab[k,k]` that the loop computes on reaching row `i` has a non-zero divisor and
satisfies `|f| ≤ 1`. -/
theorem forward_factor_bounded (n : Nat) (Ab0 Ab : Tensor) (k : Nat)
    (h0 : Ab0.IsMatrix n (n + 1)) (hk : k + 1 < n) (hstate : forwardPrefix Ab0 k = .ok Ab)
    (hpiv : Ab.entry (Find_Pivot Ab k) k ≠ 0) :
    ∃ S, Ab.Swap_Rows k (Find_Pivot Ab k) = .ok S ∧ S.entry k k ≠ 0 ∧
      (∀ i, k ≤ i → i < n → |S.entry i k| ≤ |S.entry k k|) ∧
      ∀ i, k < i → i < n →
        (eliminateBelowUpTo S k i).entry k k ≠ 0 ∧
        |(eliminateBelowUpTo S k i).entry i k / (eliminateBelowUpTo S k i).entry k k| ≤ 1 := by
  have inv := forwardPrefix_inv h0 (by omega) hstate
  have hkn : k < n := by omega
  obtain ⟨p1, p2, p3, _⟩ := Find_Pivot_spec Ab inv.isMatrix.rows_eq hkn
  obtain ⟨S, eS, mS, sS⟩ := Tensor.Swap_Rows_spec inv.isMatrix hkn p2
  have sS' : ∀ a, a < n → S.entry a k = Ab.entry (swapIndex k (Find_Pivot Ab k) a) k := by
    intro a ha
    rw [sS a ha k (by omega)]
    unfold swapIndex
    split_ifs <;> rfl
  have hkk : S.entry k k = Ab.entry (Find_Pivot Ab k) k := by
    rw [sS' k hkn]
    have : swapIndex k (Find_Pivot Ab k) k = Find_Pivot Ab k := by
      unfold swapIndex; split_ifs <;> omega
    rw [this]
  have hmax : ∀ i, k ≤ i → i < n → |S.entry i k| ≤ |S.entry k k| := by
    intro i hi1 hi2
    rw [hkk, sS' i hi2]
    apply p3
    · unfold swapIndex; split_ifs <;> omega
    · exact swapIndex_lt hkn p2 hi2
  have hne : S.entry k k ≠ 0 := by rw [hkk]; exact hpiv
  refine ⟨S, eS, hne, hmax, ?_⟩
  intro i hki hi
  obtain ⟨_, sT⟩ := eliminateBelowUpTo_spec mS hkn hki (le_of_lt hi)
  rw [sT k hkn k (by omega), if_neg (by omega), sT i hi k (by omega), if_neg (by omega)]
  refine ⟨hne, ?_⟩
  rw [abs_div]
  exact div_le_one_of_le₀ (hmax i (le_of_lt hki) hi) (abs_nonneg _)

/-- C20 at iteration `0` of `[[1,3,5],[2,1,3]]`: the pivot is `2` and the factor is `1/2`. -/
theorem forward_factor_bounded_witness :
    ∃ S, (Tensor.mk [1, 3, 5, 2, 1, 3] [2, 3]).Swap_Rows 0
        (Find_Pivot ⟨[1, 3, 5, 2, 1, 3], [2, 3]⟩ 0) = .ok S ∧ S.entry 0 0 ≠ 0 ∧
      (∀ i, 0 ≤ i → i < 2 → |S.entry i 0| ≤ |S.entry 0 0|) ∧
      ∀ i, 0 < i → i < 2 →
        (eliminateBelowUpTo S 0 i).entry 0 0 ≠ 0 ∧
        |(eliminateBelowUpTo S 0 i).entry i 0 / (eliminateBelowUpTo S 0 i).entry 0 0| ≤ 1 :=
  forward_factor_bounded 2 ⟨[1, 3, 5, 2, 1, 3], [2, 3]⟩ ⟨[1, 3, 5, 2, 1, 3], [2, 3]⟩ 0
    (by decide) (by decide) (by decide!) (by decide!)

/-! ## Reduction to reduced row echelon form -/

theorem foldlM_range_reverse_outcome {σ ε : Type} (step : σ → Nat → Except ε σ)
    (P : Nat → σ → Prop) (Q : ε → Prop) (n : Nat) : ∀ (s : σ), P n s →
    (∀ i s, i < n → P (i + 1) s →
      (∃ e, step s i = .error e ∧ Q e) ∨ (∃ s', step s i = .ok s' ∧ P i s')) →
    (∃ e, (List.range n).reverse.foldlM step s = .error e ∧ Q e) ∨
      (∃ s', (List.range n).reverse.foldlM step s = .ok s' ∧ P 0 s') := by
  induction n with
  | zero =>
    intro s h0 _
    right
    exact ⟨s, rfl, h0⟩
  | succ m ih =>
    intro s h0 hstep
    rw [List.range_succ, List.reverse_append, List.reverse_singleton, List.singleton_append,
      List.foldlM_cons]
    rcases hstep m s (Nat.lt_succ_self m) h0 with ⟨e, he, hQ⟩ | ⟨s', hs', hP⟩
    · left
      exact ⟨e, by rw [he]; rfl, hQ⟩
    · rw [hs']
      exact ih s' hP (fun i s hi hP => hstep i s (by omega) hP)

theorem normaliseRow_spec {Ab : Tensor} {n : Nat} (hAb : Ab.IsMatrix n (n + 1)) {k : Nat}
    (hk : k < n) (f : ℚ) :
    (normaliseRow Ab k f).IsMatrix n (n + 1) ∧
    ∀ a, a < n → ∀ b, b < n + 1 →
      (normaliseRow Ab k f).entry a b =
        if a = k ∧ k ≤ b then Ab.entry k b / f else Ab.entry a b := by
  have hr := hAb.rows_eq
  have key := foldl_range'_invariant
    (fun (Ab : Tensor) j => Ab.put (k * Ab.cols + j) (Ab.get (k * Ab.cols + j) / f))
    (fun m S => S.IsMatrix n (n + 1) ∧ ∀ a, a < n → ∀ b, b < n + 1 →
        S.entry a b = if a = k ∧ k ≤ b ∧ b < m then Ab.entry k b / f else Ab.entry a b)
    (Ab.rows + 1 - k) k Ab
    (by
      refine ⟨hAb, ?_⟩
      intro a _ b _
      rw [if_neg (by omega)])
    (by
      intro m S hm1 hm2 hS
      obtain ⟨h1, h2⟩ := hS
      rw [hr] at hm2
      have hm : m < n + 1 := by omega
      refine ⟨Tensor.put_IsMatrix h1 _ _, ?_⟩
      intro a ha b hb
      rw [Tensor.entry_put h1 hk hm hb]
      change (if a = k ∧ b = m then S.entry k m / f else S.entry a b) = _
      by_cases hab : a = k ∧ b = m
      · obtain ⟨rfl, rfl⟩ := hab
        rw [if_pos ⟨rfl, rfl⟩, h2 a ha b hb, if_neg (by omega), if_pos (by omega)]
      · rw [if_neg hab, h2 a ha b hb]
        apply if_congr _ rfl rfl
        constructor
        · intro h; exact ⟨h.1, h.2.1, by omega⟩
        · intro h
          refine ⟨h.1, h.2.1, ?_⟩
          have : b ≠ m := fun h' => hab ⟨h.1, h'⟩
          omega)
  rw [hr, show k + (n + 1 - k) = n + 1 by omega] at key
  have e : normaliseRow Ab k f = (List.range' k (n + 1 - k)).foldl
      (fun (Ab : Tensor) j => Ab.put (k * Ab.cols + j) (Ab.get (k * Ab.cols + j) / f))
      Ab := by
    simp only [normaliseRow, hr]
  rw [e]
  refine ⟨key.1, ?_⟩
  intro a ha b hb
  rw [key.2 a ha b hb]
  apply if_congr _ rfl rfl
  constructor
  · intro h; exact ⟨h.1, h.2.1⟩
  · intro h; exact ⟨h.1, h.2, hb⟩

theorem eliminateAbove_spec {Ab : Tensor} {n : Nat} (hAb : Ab.IsMatrix n (n + 1)) {k : Nat}
    (hk : k < n) :
    (eliminateAbove Ab k).IsMatrix n (n + 1) ∧
    ∀ a, a < n → ∀ b, b < n + 1 →
      (eliminateAbove Ab k).entry a b =
        if a < k ∧ k ≤ b then Ab.entry a b - Ab.entry k b * Ab.entry a k
        else Ab.entry a b := by
  have key := foldl_range'_invariant
    (fun (Ab : Tensor) i =>
      let f := Ab.get (i * Ab.cols + k)
      subtractRow Ab k i f)
    (fun m S => S.IsMatrix n (n + 1) ∧ ∀ a, a < n → ∀ b, b < n + 1 →
        S.entry a b =
          if a < m ∧ k ≤ b then Ab.entry a b - Ab.entry k b * Ab.entry a k
          else Ab.entry a b)
    (k - 0) 0 Ab
    (by
      refine ⟨hAb, ?_⟩
      intro a _ b _
      rw [if_neg (by omega)])
    (by
      intro m S _ hm2 hS
      obtain ⟨h1, h2⟩ := hS
      have hmk : m < k := by omega
      have hm : m < n := by omega
      obtain ⟨s1, s2⟩ := subtractRow_spec h1 hk hm (by omega) (S.entry m k)
      refine ⟨s1, ?_⟩
      intro a ha b hb
      change (subtractRow S k m (S.entry m k)).entry a b = _
      rw [s2 a ha b hb]
      have emk := h2 m hm k (by omega)
      rw [if_neg (by omega)] at emk
      rw [emk]
      by_cases hab : a = m ∧ k ≤ b
      · obtain ⟨rfl, hkb⟩ := hab
        rw [if_pos ⟨rfl, hkb⟩, h2 a ha b hb, h2 k hk b hb, if_neg (by omega),
          if_neg (by omega), if_pos (by omega)]
      · rw [if_neg hab, h2 a ha b hb]
        apply if_congr _ rfl rfl
        constructor
        · intro h; exact ⟨by omega, h.2⟩
        · intro h
          refine ⟨?_, h.2⟩
          have : a ≠ m := fun h' => hab ⟨h', h.2⟩
          omega)
  rw [Nat.zero_add, Nat.sub_zero] at key
  have e : eliminateAbove Ab k = (List.range' 0 k).foldl
      (fun (Ab : Tensor) i =>
        let f := Ab.get (i * Ab.cols + k)
        subtractRow Ab k i f)
      Ab := by
    simp only [eliminateAbove, Nat.sub_zero]
  rw [e]
  exact key

theorem solves_of_scale {N S : Tensor} {n k : Nat} (hk : k < n) {f : ℚ} (hf : f ≠ 0)
    (h : ∀ a, a < n → ∀ b, b < n + 1 →
      N.entry a b = if a = k then S.entry k b / f else S.entry a b)
    (x : Nat → ℚ) : N.Solves n x ↔ S.Solves n x := by
  have other : ∀ a, a < n → a ≠ k →
      (∑ j in Finset.range n, N.entry a j * x j = N.entry a n ↔
        ∑ j in Finset.range n, S.entry a j * x j = S.entry a n) := by
    intro a ha hak
    rw [h a ha n (by omega), if_neg hak]
    have : ∑ j in Finset.range n, N.entry a j * x j
        = ∑ j in Finset.range n, S.entry a j * x j := by
      apply Finset.sum_congr rfl
      intro j hj
      rw [h a ha j (by have := Finset.mem_range.mp hj; omega), if_neg hak]
    rw [this]
  have rowk : (∑ j in Finset.range n, N.entry k j * x j = N.entry k n ↔
        ∑ j in Finset.range n, S.entry k j * x j = S.entry k n) := by
    rw [h k hk n (by omega), if_pos rfl]
    have : ∑ j in Finset.range n, N.entry k j * x j
        = (∑ j in Finset.range n, S.entry k j * x j) / f := by
      rw [Finset.sum_div]
      apply Finset.sum_congr rfl
      intro j hj
      rw [h k hk j (by have := Finset.mem_range.mp hj; omega), if_pos rfl]
      ring
    rw [this]
    constructor
    · intro e
      field_simp at e
      exact e
    · intro e
      rw [e]
  constructor
  · intro hN a ha
    by_cases hak : a = k
    · subst hak; exact rowk.mp (hN a ha)
    · exact (other a ha hak).mp (hN a ha)
  · intro hS a ha
    by_cases hak : a = k
    · subst hak; exact rowk.mpr (hS a ha)
    · exact (other a ha hak).mpr (hS a ha)

theorem rrefStep_error {R : Tensor} {k : Nat} (h : R.entry k k = 0) :
    rrefStep R k = .error Panic.RREFNoUniqueSolution := by
  have h' : R.get (k * R.cols + k) = 0 := h
  simp only [rrefStep, h', if_true]
  rfl

theorem rrefStep_ok {R : Tensor} {k : Nat} (h : R.entry k k ≠ 0) :
    rrefStep R k = .ok (eliminateAbove (normaliseRow R k (R.entry k k)) k) := by
  have h' : ¬ R.get (k * R.cols + k) = 0 := h
  simp only [rrefStep, h', if_false]
  rfl

theorem rrefStep_spec {U R : Tensor} {n k : Nat} (inv : RrefInv U R n (k + 1))
    (hk : k < n) :
    (rrefStep R k = .error Panic.RREFNoUniqueSolution ∧ U.entry k k = 0) ∨
    (∃ R', rrefStep R k = .ok R' ∧ RrefInv U R' n k) := by
  have hd : R.entry k k = U.entry k k := inv.diag k (Nat.lt_succ_self k)
  by_cases hz : U.entry k k = 0
  · left
    exact ⟨rrefStep_error (hd.trans hz), hz⟩
  · right
    have hf : R.entry k k ≠ 0 := by rw [hd]; exact hz
    obtain ⟨mN, sN⟩ := normaliseRow_spec inv.isMatrix hk (R.entry k k)
    obtain ⟨mE, sE⟩ := eliminateAbove_spec mN hk
    have scale : ∀ a, a < n → ∀ b, b < n + 1 →
        (normaliseRow R k (R.entry k k)).entry a b =
          if a = k then R.entry k b / R.entry k k else R.entry a b := by
      intro a ha b hb
      rw [sN a ha b hb]
      by_cases hak : a = k
      · rw [if_pos hak]
        by_cases hkb : k ≤ b
        · rw [if_pos ⟨hak, hkb⟩]
        · rw [if_neg (fun h => hkb h.2), hak, inv.upper k b (by omega) hk, zero_div]
      · rw [if_neg hak, if_neg (fun h => hak h.1)]
    have nBelow : ∀ b, b < k → (normaliseRow R k (R.entry k k)).entry k b = 0 := by
      intro b hb
      rw [scale k hk b (by omega), if_pos rfl, inv.upper k b hb hk, zero_div]
    have rowop : ∀ a, a < n → ∀ b, b < n + 1 →
        (eliminateAbove (normaliseRow R k (R.entry k k)) k).entry a b =
          (normaliseRow R k (R.entry k k)).entry a b
          - (if a < k then (normaliseRow R k (R.entry k k)).entry a k else 0)
            * (normaliseRow R k (R.entry k k)).entry k b := by
      intro a ha b hb
      rw [sE a ha b hb]
      by_cases hak : a < k
      · rw [if_pos hak]
        by_cases hkb : k ≤ b
        · rw [if_pos ⟨hak, hkb⟩]; ring
        · rw [if_neg (fun h => hkb h.2), nBelow b (by omega)]; ring
      · rw [if_neg hak, if_neg (fun h => hak h.1)]; ring
    refine ⟨_, rrefStep_ok hf, ⟨mE, ?_, ?_, ?_, ?_, ?_⟩⟩
    · intro i j hji hi
      rw [sE i hi j (by omega), if_neg (by omega), scale i hi j (by omega)]
      by_cases hik : i = k
      · rw [if_pos hik, inv.upper k j (by omega) hk, zero_div]
      · rw [if_neg hik]
        exact inv.upper i j hji hi
    · intro i j hi hkj hj
      rw [sE i hi j (by omega)]
      rcases Nat.lt_or_ge k j with hlt | hge
      · have nkj : (normaliseRow R k (R.entry k k)).entry k j = 0 := by
          rw [scale k hk j (by omega), if_pos rfl, inv.reduced k j hk (by omega) hj,
            if_neg (by omega), zero_div]
        have nij : (normaliseRow R k (R.entry k k)).entry i j = if i = j then 1 else 0 := by
          by_cases hik : i = k
          · rw [hik, nkj, if_neg (by omega)]
          · rw [scale i hi j (by omega), if_neg hik]
            exact inv.reduced i j hi (by omega) hj
        by_cases hik : i < k
        · rw [if_pos ⟨hik, hkj⟩, nkj, nij]; ring
        · rw [if_neg (fun h => hik h.1), nij]
      · have hjk : j = k := by omega
        subst hjk
        have nkk : (normaliseRow R j (R.entry j j)).entry j j = 1 := by
          rw [scale j hk j (by omega), if_pos rfl, div_self hf]
        by_cases hij : i < j
        · rw [if_pos ⟨hij, le_refl _⟩, nkk, if_neg (by omega)]; ring
        · rw [if_neg (fun h => hij h.1)]
          by_cases hij' : i = j
          · rw [if_pos hij', hij', nkk]
          · rw [if_neg hij', scale i hi j (by omega), if_neg hij']
            exact inv.upper i j (by omega) hi
    · intro i hi
      rw [sE i (by omega) i (by omega), if_neg (by omega), scale i (by omega) i (by omega),
        if_neg (by omega)]
      exact inv.diag i (by omega)
    · intro i hki hi
      rcases Nat.lt_or_ge k i with h | h
      · exact inv.pivots i h hi
      · have : i = k := by omega
        subst this; exact hz
    · intro x
      rw [solves_of_rowop hk _ (by simp) rowop x, solves_of_scale hk hf scale x]
      exact inv.solves x

theorem RrefInv.start {U : Tensor} {n : Nat} (h : U.IsMatrix n (n + 1))
    (upper : ∀ i j, j < i → i < n → U.entry i j = 0) : RrefInv U U n n :=
  ⟨h, upper, fun _ _ _ h1 h2 => absurd h2 (by omega), fun _ _ => rfl,
    fun _ h1 h2 => absurd h2 (by omega), fun _ => Iff.rfl⟩

theorem RREF_spec {U : Tensor} {n : Nat} (h : U.IsMatrix n (n + 1))
    (upper : ∀ i j, j < i → i < n → U.entry i j = 0) :
    (RREF U = .error Panic.RREFNoUniqueSolution ∧ ∃ k, k < n ∧ U.entry k k = 0) ∨
    (∃ R, RREF U = .ok R ∧ RrefInv U R n 0) := by
  have key := foldlM_range_reverse_outcome rrefStep (fun k R => RrefInv U R n k)
    (fun e => e = Panic.RREFNoUniqueSolution ∧ ∃ k, k < n ∧ U.entry k k = 0)
    n U (RrefInv.start h upper)
    (by
      intro k R hk inv
      rcases rrefStep_spec inv hk with ⟨h1, h2⟩ | h1
      · left; exact ⟨_, h1, rfl, k, hk, h2⟩
      · right; exact h1)
  have e : RREF U = (List.range n).reverse.foldlM rrefStep U := by
    simp only [RREF, h.rows_eq]
  rw [e]
  rcases key with ⟨e, he, rfl, hd⟩ | h1
  · left; exact ⟨he, hd⟩
  · right; exact h1

theorem solves_identity {R : Tensor} {n : Nat}
    (hid : ∀ i j, i < n → j < n → R.entry i j = if i = j then 1 else 0) (x : Nat → ℚ) :
    R.Solves n x ↔ ∀ i, i < n → x i = R.entry i n := by
  have row : ∀ i, i < n → ∑ j in Finset.range n, R.entry i j * x j = x i := by
    intro i hi
    rw [Finset.sum_eq_single i]
    · rw [hid i i hi hi, if_pos rfl, one_mul]
    · intro j hj hji
      rw [hid i j hi (Finset.mem_range.mp hj), if_neg (fun h => hji h.symm), zero_mul]
    · intro h
      exact absurd (Finset.mem_range.mpr hi) h
  constructor
  · intro hs i hi
    rw [← row i hi]; exact hs i hi
  · intro hx i hi
    rw [row i hi]; exact hx i hi

/-- C15. For every `n ≥ 1` and every `n×(n+1)` matrix `[U | c]` that is upper-triangular in
its first `n` columns: `RREF` fails with its "No unique solution" panic if and only if some
diagonal entry `U[k,k]` is zero; when no diagonal entry is zero it returns an `n×(n+1)` matrix
whose first `n` columns are the identity matrix and whose column `n` is the unique `x` with
`U·x = c`. -/
theorem RREF_contract (n : Nat) (_hn : 1 ≤ n) (Ab : Tensor) (hAb : Ab.IsMatrix n (n + 1))
    (upper : ∀ i j, j < i → i < n → Ab.entry i j = 0) :
    (RREF Ab = .error Panic.RREFNoUniqueSolution ↔ ∃ k, k < n ∧ Ab.entry k k = 0) ∧
    ((∀ k, k < n → Ab.entry k k ≠ 0) →
      ∃ R, RREF Ab = .ok R ∧ R.IsMatrix n (n + 1) ∧
        (∀ i j, i < n → j < n → R.entry i j = if i = j then 1 else 0) ∧
        Ab.Solves n (fun i => R.entry i n) ∧
        ∀ x : Nat → ℚ, Ab.Solves n x → ∀ i, i < n → x i = R.entry i n) := by
  have ok : ∀ R, RrefInv Ab R n 0 →
      R.IsMatrix n (n + 1) ∧
        (∀ i j, i < n → j < n → R.entry i j = if i = j then 1 else 0) ∧
        Ab.Solves n (fun i => R.entry i n) ∧
        ∀ x : Nat → ℚ, Ab.Solves n x → ∀ i, i < n → x i = R.entry i n := by
    intro R inv
    have hid : ∀ i j, i < n → j < n → R.entry i j = if i = j then 1 else 0 :=
      fun i j hi hj => inv.reduced i j hi (Nat.zero_le _) hj
    refine ⟨inv.isMatrix, hid, ?_, ?_⟩
    · exact (inv.solves _).mp ((solves_identity hid _).mpr (fun _ _ => rfl))
    · intro x hx
      exact (solves_identity hid x).mp ((inv.solves x).mpr hx)
  rcases RREF_spec hAb upper with ⟨e, k, hk, hz⟩ | ⟨R, e, inv⟩
  · refine ⟨⟨fun _ => ⟨k, hk, hz⟩, fun _ => e⟩, ?_⟩
    intro hall
    exact absurd hz (hall k hk)
  · refine ⟨⟨?_, ?_⟩, fun _ => ⟨R, e, ok R inv⟩⟩
    · intro herr
      rw [e] at herr
      cases herr
    · rintro ⟨k, hk, hz⟩
      exact absurd hz (inv.pivots k (Nat.zero_le _) hk)

theorem rref_example :
    RREF ⟨[2, 1, 3, 0, 5 / 2, 7 / 2], [2, 3]⟩
      = .ok ⟨[1, 0, 4 / 5, 0, 1, 7 / 5], [2, 3]⟩ := by
  decide!

/-- C15 at `[U | c] = [[2,1,3],[0,5/2,7/2]]`, reduced to `[[1,0,4/5],[0,1,7/5]]`, and at
`[[1,2,3],[0,0,2]]`, on which `RREF` fails. -/
theorem RREF_contract_witness :
    RREF ⟨[2, 1, 3, 0, 5 / 2, 7 / 2], [2, 3]⟩ = .ok ⟨[1, 0, 4 / 5, 0, 1, 7 / 5], [2, 3]⟩ ∧
    RREF ⟨[1, 2, 3, 0, 0, 2], [2, 3]⟩ = .error Panic.RREFNoUniqueSolution ∧
    ((∀ k, k < 2 → (Tensor.mk [2, 1, 3, 0, 5 / 2, 7 / 2] [2, 3]).entry k k ≠ 0) →
      ∃ R, RREF ⟨[2, 1, 3, 0, 5 / 2, 7 / 2], [2, 3]⟩ = .ok R ∧ R.IsMatrix 2 3 ∧
        (∀ i j, i < 2 → j < 2 → R.entry i j = if i = j then 1 else 0) ∧
        (Tensor.mk [2, 1, 3, 0, 5 / 2, 7 / 2] [2, 3]).Solves 2 (fun i => R.entry i 2) ∧
        ∀ x : Nat → ℚ, (Tensor.mk [2, 1, 3, 0, 5 / 2, 7 / 2] [2, 3]).Solves 2 x →
          ∀ i, i < 2 → x i = R.entry i 2) :=
  ⟨rref_example, by decide!,
    (RREF_contract 2 (by decide) ⟨[2, 1, 3, 0, 5 / 2, 7 / 2], [2, 3]⟩ (by decide)
      (by
        intro i j hji hi
        have hi' : i = 1 := by omega
        have hj' : j = 0 := by omega
        subst hi' hj'
        decide!)).2⟩

/-! ## Exact arithmetic against `float64` arithmetic -/

theorem Forward_Elimination_rounded_id (Ab : Tensor) :
    Forward_Elimination_rounded id Ab = Forward_Elimination Ab := rfl

theorem RREF_rounded_id (Ab : Tensor) : RREF_rounded id Ab = RREF Ab := rfl

theorem Execute_rounded_id (A b : Tensor) :
    GaussJordanElimination.Execute_rounded id A b = GaussJordanElimination.Execute A b := rfl

theorem float64_examples :
    float64 7 = 7 ∧ float64 (-4503599627370496) = -4503599627370496 ∧
    float64 (1 / 7) = 2573485501354569 / 18014398509481984 ∧
    float64 (1 / 10) = 3602879701896397 / 36028797018963968 ∧
    float64 (9007199254740993) = 9007199254740992 ∧
    float64 (9007199254740995) = 9007199254740996 ∧
    float64 (-1 / 3) = -6004799503160661 / 18014398509481984 := by
  decide!

end TG
